import Mathlib

/-!
Verification development for the libnbt streaming NBT parser
(include/nbt_parser.hpp, include/nbt_utilities.hpp).

The parser is embedded shallowly: the byte stream is a list of natural
numbers below 256, the push-down automaton of nbt::parse is a step
function on an explicit configuration (remaining input, state stack,
deque of partial result nodes), and machine integers are modelled by
Nat/Int with explicit two's-complement reinterpretation.
-/

namespace Nbt

/-- Reinterpretation of an unsigned w-bit value as a signed two's-complement
integer, as performed by static_cast from the unsigned codec results
(detail::b2tos16 / b4tos32 / b8tos64) to the signed node types. -/
def scast (w : Nat) (v : Nat) : Int :=
  if v < 2 ^ (w - 1) then (v : Int) else (v : Int) - 2 ^ w

/-- Wrapping conversion of an arbitrary integer to a signed w-bit value,
as performed by static_cast of the istream int_type result in case 1A. -/
def wrapCast (w : Nat) (x : Int) : Int :=
  (x + 2 ^ (w - 1)) % 2 ^ w - 2 ^ (w - 1)

/-- Conversion of a signed value to std::size_t (modular, 64-bit),
as happens when the signed Short string length is bound to the
std::size_t local in case 8B. -/
def toSizeT (x : Int) : Nat :=
  (x % (2 ^ 64 : Int)).toNat

/-- Big-endian value of a byte buffer, each byte masked with 0xFF, exactly
as detail::b2tos16, b4tos32 and b8tos64 assemble their results. -/
def beVal : List Nat → Nat
  | [] => 0
  | b :: t => (b % 256) * 256 ^ t.length + beVal t

/-- The in-memory node model: the twelve alternatives of the std::variant
produced by nbt::parse. Children of List and Compound are stored through
type-erased owning pointers in the source; here they are stored directly.
The unordered Compound map is modelled as the association list of its
entries in insertion order, with first-write-wins insertion mirroring
try_emplace. Float and Double keep their raw big-endian bit patterns,
since b4toflt and b8todbl only reinterpret bits. -/
inductive Node where
  | byte (v : Int)
  | short (v : Int)
  | int (v : Int)
  | long (v : Int)
  | float (bits : Nat)
  | double (bits : Nat)
  | byteArray (vs : List Int)
  | string (s : List Nat)
  | list (es : List Node)
  | compound (es : List (List Nat × Node))
  | intArray (vs : List Int)
  | longArray (vs : List Int)
deriving Repr

/-- Control states of the push-down automaton, as in detail::state. -/
inductive St where
  | S
  | S1 | S2 | S3 | S4 | S5 | S6 | S7 | S8 | S9 | SA | SB | SC
  | S7A | S8A | S9A | SBA | SCA
  | S9B | SAB
  | NTS | NT
  | F
deriving Repr, DecidableEq

/-- Mapping from a consumed tag value to the payload state, as in
detail::state_of_tag. Any value outside 1..12 (including negative
bytes, whose conversion to unsigned misses every case) yields F. -/
def stateOfTag (tag : Int) : St :=
  if tag = 1 then .S1
  else if tag = 2 then .S2
  else if tag = 3 then .S3
  else if tag = 4 then .S4
  else if tag = 5 then .S5
  else if tag = 6 then .S6
  else if tag = 7 then .S7
  else if tag = 8 then .S8
  else if tag = 9 then .S9
  else if tag = 10 then .SA
  else if tag = 11 then .SB
  else if tag = 12 then .SC
  else .F

/-- The two parsing policies of nbt::parsing. -/
inductive Parsing where
  | implicit_compound
  | no_implicit
deriving Repr, DecidableEq

/-- Labels of the switch cases of nbt::parse. The twelve cases for state S
(multichar constants 1 .. C) have identical bodies up to the pushed
payload state, so they are represented by one label carrying the tag. -/
inductive CaseL where
  | ctag (t : Nat)
  | c0
  | c1a | c2a | c3a | c4a | c5a | c6a
  | c7a | c7b | c8a | c8b | c9a | c9b | c9c
  | cAa | cAb | cNt | cAc | cAe
  | cBa | cBb | cCa | cCb
deriving Repr, DecidableEq

/-- The transition table trans of nbt::parse, as a function from the top
state and the peeked lookahead (none models the eof int_type) to a case
label. The detail::default_map lookup first tries the exact key and then
the monostate wildcard; a state whose row has neither raises
std::out_of_range, modelled by the result none. -/
def transAt (pol : Parsing) (st : St) (c : Option Nat) : Option CaseL :=
  match st with
  | .F => match c with
      | none => some .c0
      | some _ => none
  | .S => match c with
      | none => none
      | some b => if 1 ≤ b ∧ b ≤ 12 then some (.ctag b) else none
  | .NTS => match c with
      | some 0 => some .cAe
      | none => if pol = .implicit_compound then some .c0 else some .cAb
      | some _ => some .cAb
  | .S1 => some .c1a
  | .S2 => some .c2a
  | .S3 => some .c3a
  | .S4 => some .c4a
  | .S5 => some .c5a
  | .S6 => some .c6a
  | .S7 => some .c7a
  | .S7A => some .c7b
  | .S8 => some .c8a
  | .S8A => some .c8b
  | .S9 => some .c9a
  | .S9A => some .c9b
  | .S9B => some .c9c
  | .SA => some .cAa
  | .NT => some .cNt
  | .SAB => some .cAc
  | .SB => some .cBa
  | .SBA => some .cBb
  | .SC => some .cCa
  | .SCA => some .cCb

/-- A byte stream: the undelivered characters of the std::basic_istream. -/
abbrev ByteStream := List Nat

/-- Peek at the next character; none models the eof int_type. -/
def peekS (s : ByteStream) : Option Nat := s.head?

/-- Consume one character, as istream get. At end of stream the C++ call
returns the eof value -1, which case 1A then casts to the byte type. -/
def get1 (s : ByteStream) : Int × ByteStream :=
  match s with
  | [] => (-1, [])
  | b :: r => ((b : Int), r)

/-- Read n characters, as istream read into a scratch buffer. A short read
leaves the C++ buffer partly indeterminate and the stream failed; it is
modelled as a distinguished truncation failure. -/
def readBytes (n : Nat) (s : ByteStream) : Option (List Nat × ByteStream) :=
  if n ≤ s.length then some (s.take n, s.drop n) else none

/-- Decoding loop of cases BB and CB: count values of w bytes each are
assembled big-endian from the scratch buffer and sign-cast to width sw. -/
def readInts (w sw : Nat) : Nat → List Nat → List Int
  | 0, _ => []
  | n + 1, s => scast sw (beVal (s.take w)) :: readInts w sw n (s.drop w)

/-- Projection of the Byte alternative, as std::get_if of index 0. -/
def Node.asByte? : Node → Option Int
  | .byte v => some v
  | _ => none

/-- Projection of the Short alternative, as std::get_if of index 1. -/
def Node.asShort? : Node → Option Int
  | .short v => some v
  | _ => none

/-- Projection of the Int alternative, as std::get_if of index 2. -/
def Node.asInt? : Node → Option Int
  | .int v => some v
  | _ => none

/-- Projection of the String alternative, as std::get_if of index 7. -/
def Node.asString? : Node → Option (List Nat)
  | .string s => some s
  | _ => none

/-- Projection of the List alternative, as std::get_if of index 8. -/
def Node.asList? : Node → Option (List Node)
  | .list es => some es
  | _ => none

/-- Projection of the Compound alternative, as std::get_if of index 9. -/
def Node.asCompound? : Node → Option (List (List Nat × Node))
  | .compound es => some es
  | _ => none

/-- First-write-wins insertion into the compound association list, the
behaviour of try_emplace on the unordered map: an existing key keeps its
value and the new value is discarded. -/
def insertFW (m : List (List Nat × Node)) (k : List Nat) (v : Node) :
    List (List Nat × Node) :=
  if m.any (fun p => p.1 == k) then m else m ++ [(k, v)]

/-- A configuration of the push-down automaton: the remaining input, the
state stack ss (head is the top) and the deque ret of partial results
(head is the front). -/
structure Config where
  input : ByteStream
  ss : List St
  ret : List Node
deriving Repr

/-- Failure modes surfacing from one parse call.
outOfRange is the std::out_of_range thrown by the default_map lookup when
neither the peeked key nor the monostate wildcard is present.
lengthError is the std::length_error thrown by vector reserve in case 9B
when a negative element count, converted to size_type, exceeds max_size.
truncated covers reads past the end of the stream (in the C++, a failed
read or a std::bad_alloc on an oversized scratch buffer).
corruptState marks configurations that are undefined behaviour in the
C++ (null get_if dereference, front of an empty deque, top of an empty
stack); they are unreachable from the entry configurations. -/
inductive Err where
  | outOfRange
  | lengthError
  | truncated
  | corruptState
deriving Repr, DecidableEq

/-- Result of one iteration of the dispatch loop of nbt::parse. -/
inductive StepRes where
  | next (c : Config)
  | done (n : Node) (rest : ByteStream)
  | fail (e : Err)
deriving Repr

/-- One iteration of the loop of nbt::parse: the transition table is
consulted on the top state and the peeked character, and the selected
case body runs. Each branch transcribes the corresponding switch case. -/
def step (pol : Parsing) (cfg : Config) : StepRes :=
  match cfg.ss with
  | [] => .fail .corruptState
  | st :: tl =>
    match transAt pol st (peekS cfg.input) with
    | none => .fail .outOfRange
    | some lbl =>
      match lbl with
      | .ctag t =>
          .next ⟨(get1 cfg.input).2, stateOfTag (t : Int) :: tl, cfg.ret⟩
      | .c0 =>
          match cfg.ret with
          | n :: _ => .done n cfg.input
          | [] => .fail .corruptState
      | .c1a =>
          let r := get1 cfg.input
          .next ⟨r.2, tl, .byte (wrapCast 8 r.1) :: cfg.ret⟩
      | .c2a =>
          match readBytes 2 cfg.input with
          | none => .fail .truncated
          | some (buf, inp) =>
              .next ⟨inp, tl, .short (scast 16 (beVal buf)) :: cfg.ret⟩
      | .c3a =>
          match readBytes 4 cfg.input with
          | none => .fail .truncated
          | some (buf, inp) =>
              .next ⟨inp, tl, .int (scast 32 (beVal buf)) :: cfg.ret⟩
      | .c4a =>
          match readBytes 8 cfg.input with
          | none => .fail .truncated
          | some (buf, inp) =>
              .next ⟨inp, tl, .long (scast 64 (beVal buf)) :: cfg.ret⟩
      | .c5a =>
          match readBytes 4 cfg.input with
          | none => .fail .truncated
          | some (buf, inp) =>
              .next ⟨inp, tl, .float (beVal buf) :: cfg.ret⟩
      | .c6a =>
          match readBytes 8 cfg.input with
          | none => .fail .truncated
          | some (buf, inp) =>
              .next ⟨inp, tl, .double (beVal buf) :: cfg.ret⟩
      | .c7a => .next ⟨cfg.input, .S3 :: .S7A :: tl, cfg.ret⟩
      | .c7b =>
          match cfg.ret with
          | front :: retT =>
            match front.asInt? with
            | some len =>
                if 0 < len then
                  match readBytes len.toNat cfg.input with
                  | none => .fail .truncated
                  | some (buf, inp) =>
                      .next ⟨inp, tl,
                        .byteArray (buf.map (fun b => scast 8 (b % 256)))
                          :: retT⟩
                else
                  .next ⟨cfg.input, tl, .byteArray [] :: retT⟩
            | none => .fail .corruptState
          | [] => .fail .corruptState
      | .c8a => .next ⟨cfg.input, .S2 :: .S8A :: tl, cfg.ret⟩
      | .c8b =>
          match cfg.ret with
          | front :: retT =>
            match front.asShort? with
            | some s =>
                match readBytes (toSizeT s) cfg.input with
                | none => .fail .truncated
                | some (buf, inp) => .next ⟨inp, tl, .string buf :: retT⟩
            | none => .fail .corruptState
          | [] => .fail .corruptState
      | .c9a =>
          .next ⟨cfg.input, .S1 :: .S3 :: .S9A :: tl, .list [] :: cfg.ret⟩
      | .c9b =>
          match cfg.ret with
          | cnt :: tg :: lst :: _ =>
            match cnt.asInt?, tg.asByte?, lst.asList? with
            | some count, some tag, some _ =>
                if count < 0 then
                  .fail .lengthError
                else if 0 < count ∧ tag ≠ 0 then
                  .next ⟨cfg.input, stateOfTag tag :: .S9B :: tl, cfg.ret⟩
                else
                  .next ⟨cfg.input, tl, cfg.ret.drop 2⟩
            | _, _, _ => .fail .corruptState
          | _ => .fail .corruptState
      | .c9c =>
          match cfg.ret with
          | v :: c :: tg :: lst :: retT =>
            match c.asInt?, tg.asByte?, lst.asList? with
            | some cnt, some tag, some acc =>
                if 0 < cnt - 1 then
                  .next ⟨cfg.input, stateOfTag tag :: .S9B :: tl,
                    .int (cnt - 1) :: tg :: .list (acc ++ [v]) :: retT⟩
                else
                  .next ⟨cfg.input, tl, .list (acc ++ [v]) :: retT⟩
            | _, _, _ => .fail .corruptState
          | _ => .fail .corruptState
      | .cAa => .next ⟨cfg.input, .NTS :: tl, .compound [] :: cfg.ret⟩
      | .cAb => .next ⟨cfg.input, .S1 :: .S8 :: .NT :: tl, cfg.ret⟩
      | .cNt =>
          match cfg.ret with
          | _ :: tg :: _ =>
            match tg.asByte? with
            | some tag =>
                .next ⟨cfg.input, stateOfTag tag :: .SAB :: tl, cfg.ret⟩
            | none => .fail .corruptState
          | _ => .fail .corruptState
      | .cAc =>
          match cfg.ret with
          | v :: nm :: _ :: cp :: retT =>
            match nm.asString?, cp.asCompound? with
            | some k, some m =>
                .next ⟨cfg.input, .NTS :: tl,
                  .compound (insertFW m k v) :: retT⟩
            | _, _ => .fail .corruptState
          | _ => .fail .corruptState
      | .cAe => .next ⟨(get1 cfg.input).2, tl, cfg.ret⟩
      | .cBa => .next ⟨cfg.input, .S3 :: .SBA :: tl, cfg.ret⟩
      | .cBb =>
          match cfg.ret with
          | front :: retT =>
            match front.asInt? with
            | some count =>
                if 0 < count then
                  match readBytes (count.toNat * 4) cfg.input with
                  | none => .fail .truncated
                  | some (buf, inp) =>
                      .next ⟨inp, tl,
                        .intArray (readInts 4 32 count.toNat buf) :: retT⟩
                else
                  .next ⟨cfg.input, tl, .intArray [] :: retT⟩
            | none => .fail .corruptState
          | [] => .fail .corruptState
      | .cCa => .next ⟨cfg.input, .S3 :: .SCA :: tl, cfg.ret⟩
      | .cCb =>
          match cfg.ret with
          | front :: retT =>
            match front.asInt? with
            | some count =>
                if 0 < count then
                  match readBytes (count.toNat * 8) cfg.input with
                  | none => .fail .truncated
                  | some (buf, inp) =>
                      .next ⟨inp, tl,
                        .longArray (readInts 8 64 count.toNat buf) :: retT⟩
                else
                  .next ⟨cfg.input, tl, .longArray [] :: retT⟩
            | none => .fail .corruptState
          | [] => .fail .corruptState

/-- Entry configuration of nbt::parse for each policy: the implicit
policy starts in SA on the bare stack, the explicit policy pushes F and
then S. -/
def initConfig (pol : Parsing) (bs : ByteStream) : Config :=
  match pol with
  | .implicit_compound => ⟨bs, [.SA], []⟩
  | .no_implicit => ⟨bs, [.S, .F], []⟩

/-- Observable outcome of a parse call: the returned root node together
with the unconsumed rest of the stream, or a failure. spin only reports
exhausted fuel of the executable approximation. -/
inductive Outcome where
  | ok (n : Node) (rest : ByteStream)
  | err (e : Err)
  | spin
deriving Repr

/-- Fuelled execution of the dispatch loop. -/
def run (pol : Parsing) : Nat → Config → Outcome
  | 0, _ => .spin
  | fuel + 1, cfg =>
    match step pol cfg with
    | .next c => run pol fuel c
    | .done n rest => .ok n rest
    | .fail e => .err e

/-- Parsing bs under policy pol terminates returning root n with rest of
the stream unconsumed. -/
def ParsesTo (pol : Parsing) (bs : ByteStream) (n : Node) (rest : ByteStream) : Prop :=
  ∃ fuel, run pol fuel (initConfig pol bs) = .ok n rest

/-- Parsing bs under policy pol aborts with failure e. -/
def FailsWith (pol : Parsing) (bs : ByteStream) (e : Err) : Prop :=
  ∃ fuel, run pol fuel (initConfig pol bs) = .err e

/-- Reachability in the small-step semantics of the dispatch loop. -/
def Steps (pol : Parsing) (a b : Config) : Prop :=
  Relation.ReflTransGen (fun x y => step pol x = .next y) a b

/-- From configuration a the loop eventually aborts with failure e. -/
def StepsFail (pol : Parsing) (a : Config) (e : Err) : Prop :=
  ∃ c, Steps pol a c ∧ step pol c = .fail e

/-!
Wire-format encoder. The parser never appears in the source together
with an emitter, so the encoder below is the reference description of
the wire format of section 6 of the specification, used to quantify
over well-formed documents: big-endian length-framed payloads, exactly
the byte shapes the state machine consumes.
-/

/-- Wire tag value of each alternative, the variant index plus one up to
the hole at End. -/
def tagOf : Node → Nat
  | .byte _ => 1
  | .short _ => 2
  | .int _ => 3
  | .long _ => 4
  | .float _ => 5
  | .double _ => 6
  | .byteArray _ => 7
  | .string _ => 8
  | .list _ => 9
  | .compound _ => 10
  | .intArray _ => 11
  | .longArray _ => 12

/-- Big-endian byte string of width w for an unsigned value. -/
def be : Nat → Nat → List Nat
  | 0, _ => []
  | w + 1, v => (v / 2 ^ (8 * w)) % 256 :: be w v

/-- Big-endian two's-complement byte string of width n for a signed value. -/
def encInt (n : Nat) (x : Int) : List Nat :=
  be n ((x % (2 ^ (8 * n) : Int)).toNat)

/-- Element tag written for a list: the tag of the first element, or the
End tag 0x00 for an empty list. -/
def elemTagL : List Node → Nat
  | [] => 0
  | e :: _ => tagOf e

/-- Payload bytes of a node, without the leading tag byte and without a
name: exactly what the payload states of the machine consume. -/
def encPayload : Node → List Nat
  | .byte v => encInt 1 v
  | .short v => encInt 2 v
  | .int v => encInt 4 v
  | .long v => encInt 8 v
  | .float b => be 4 b
  | .double b => be 8 b
  | .byteArray vs => encInt 4 vs.length ++ (vs.map (fun x => encInt 1 x)).flatten
  | .string s => be 2 s.length ++ s
  | .list es =>
      elemTagL es ::
        (encInt 4 es.length ++ (es.attach.map (fun x => encPayload x.1)).flatten)
  | .compound es =>
      (es.attach.map
        (fun kv => tagOf kv.1.2 :: (be 2 kv.1.1.length ++ kv.1.1 ++ encPayload kv.1.2))).flatten
        ++ [0]
  | .intArray vs => encInt 4 vs.length ++ (vs.map (fun x => encInt 4 x)).flatten
  | .longArray vs => encInt 4 vs.length ++ (vs.map (fun x => encInt 8 x)).flatten
decreasing_by
  all_goals (try (have h := List.sizeOf_lt_of_mem x.2))
  all_goals (try (have h := List.sizeOf_lt_of_mem kv.2))
  all_goals (try (obtain ⟨⟨a, b⟩, hm⟩ := kv))
  all_goals simp_all
  all_goals omega

/-- Concatenated payloads of list elements. -/
def encElems (es : List Node) : List Nat :=
  (es.map encPayload).flatten

/-- Wire bytes of one named compound entry: tag byte, big-endian name
length, name bytes, payload. -/
def encEntry (kv : List Nat × Node) : List Nat :=
  tagOf kv.2 :: (be 2 kv.1.length ++ kv.1 ++ encPayload kv.2)

/-- Wire bytes of a compound body, without the trailing End tag. -/
def encEntries (es : List (List Nat × Node)) : List Nat :=
  (es.map encEntry).flatten

/-- Accumulated first-write-wins insertion of a run of entries, the net
effect of the try_emplace calls of case AC. -/
def fwFold (acc : List (List Nat × Node)) (es : List (List Nat × Node)) :
    List (List Nat × Node) :=
  es.foldl (fun m kv => insertFW m kv.1 kv.2) acc

/-- Association-list lookup returning the value of the first entry with
the given key. -/
def lookupA (m : List (List Nat × Node)) (k : List Nat) : Option Node :=
  (m.find? (fun p => p.1 == k)).map Prod.snd

/-- Well-formed nodes: the value fits its signed width, length prefixes
fit a positive signed 32-bit count (kept below the thresholds at which
the source arithmetic on count times element width stays defined), list
elements are homogeneous with the written element tag, string and name
lengths stay below 2 to the 15 so that the signed Short length state
reproduces them, and compound keys are distinct. -/
inductive WF : Node → Prop
  | byte (v : Int) : -128 ≤ v → v < 128 → WF (.byte v)
  | short (v : Int) : -(2 ^ 15) ≤ v → v < 2 ^ 15 → WF (.short v)
  | int (v : Int) : -(2 ^ 31) ≤ v → v < 2 ^ 31 → WF (.int v)
  | long (v : Int) : -(2 ^ 63) ≤ v → v < 2 ^ 63 → WF (.long v)
  | float (b : Nat) : b < 2 ^ 32 → WF (.float b)
  | double (b : Nat) : b < 2 ^ 64 → WF (.double b)
  | byteArray (vs : List Int) : vs.length < 2 ^ 31 →
      (∀ x ∈ vs, -128 ≤ x ∧ x < 128) → WF (.byteArray vs)
  | string (s : List Nat) : s.length < 2 ^ 15 → WF (.string s)
  | list (es : List Node) : es.length < 2 ^ 31 →
      (∀ e ∈ es, tagOf e = elemTagL es) → (∀ e ∈ es, WF e) → WF (.list es)
  | compound (es : List (List Nat × Node)) : (es.map Prod.fst).Nodup →
      (∀ kv ∈ es, kv.1.length < 2 ^ 15) → (∀ kv ∈ es, WF kv.2) →
      WF (.compound es)
  | intArray (vs : List Int) : vs.length < 2 ^ 29 →
      (∀ x ∈ vs, -(2 ^ 31) ≤ x ∧ x < 2 ^ 31) → WF (.intArray vs)
  | longArray (vs : List Int) : vs.length < 2 ^ 28 →
      (∀ x ∈ vs, -(2 ^ 63) ≤ x ∧ x < 2 ^ 63) → WF (.longArray vs)

/-- Well-formed top-level compound entries: name below the signed Short
bound and a well-formed value. Key duplication is allowed here; the
parser resolves it first-write-wins. -/
def WFEntries (es : List (List Nat × Node)) : Prop :=
  ∀ kv ∈ es, kv.1.length < 2 ^ 15 ∧ WF kv.2

/-! Arithmetic facts about the byte codecs. -/

theorem be_length (w v : Nat) : (be w v).length = w := by
  induction w generalizing v with
  | zero => rfl
  | succ w ih => simp [be, ih]

theorem beVal_be (w v : Nat) : beVal (be w v) = v % 2 ^ (8 * w) := by
  induction w generalizing v with
  | zero => simp [be, beVal, Nat.mod_one]
  | succ w ih =>
      simp only [be, beVal, be_length, ih]
      rw [Nat.mod_mod_of_dvd _ dvd_rfl]
      have h1 : (8 : Nat) * (w + 1) = 8 * w + 8 := by ring
      rw [h1, pow_add, Nat.mod_mul]
      have h2 : (256 : Nat) = 2 ^ 8 := by norm_num
      have h3 : (256 : Nat) ^ w = 2 ^ (8 * w) := by
        rw [h2]
        exact (pow_mul 2 8 w).symm
      rw [h3, h2]
      ring

theorem encInt_length (n : Nat) (x : Int) : (encInt n x).length = n := be_length _ _

theorem scast_encInt (n w : Nat) (x : Int) (hw : 8 * n = w) (hn : 0 < n)
    (h1 : -(2 ^ (w - 1)) ≤ x) (h2 : x < 2 ^ (w - 1)) :
    scast w (beVal (encInt n x)) = x := by
  subst hw
  have hMH : (2 : Int) ^ (8 * n) = 2 * 2 ^ (8 * n - 1) := by
    have he : 8 * n - 1 + 1 = 8 * n := by omega
    calc (2 : Int) ^ (8 * n) = 2 ^ (8 * n - 1 + 1) := by rw [he]
    _ = 2 ^ (8 * n - 1) * 2 := pow_succ 2 _
    _ = 2 * 2 ^ (8 * n - 1) := by ring
  have hHpos : (0 : Int) < 2 ^ (8 * n - 1) := by positivity
  have hMpos : (0 : Int) < 2 ^ (8 * n) := by positivity
  have hcastM : (((2 : Nat) ^ (8 * n) : Nat) : Int) = (2 : Int) ^ (8 * n) := by
    push_cast
    ring
  have hcastH : (((2 : Nat) ^ (8 * n - 1) : Nat) : Int) = (2 : Int) ^ (8 * n - 1) := by
    push_cast
    ring
  have heq : x % (2 : Int) ^ (8 * n) = if 0 ≤ x then x else x + 2 ^ (8 * n) := by
    by_cases hx : 0 ≤ x
    · rw [if_pos hx]
      exact Int.emod_eq_of_lt hx (by omega)
    · rw [if_neg hx]
      have e1 : (x + (2 : Int) ^ (8 * n) * 1) % (2 : Int) ^ (8 * n)
          = x % (2 : Int) ^ (8 * n) := Int.add_mul_emod_self_left x _ 1
      rw [mul_one] at e1
      rw [← e1]
      exact Int.emod_eq_of_lt (by omega) (by omega)
  have h0 : 0 ≤ x % (2 : Int) ^ (8 * n) := Int.emod_nonneg x (by omega)
  have hlt : x % (2 : Int) ^ (8 * n) < 2 ^ (8 * n) := Int.emod_lt_of_pos x hMpos
  have hval : beVal (encInt n x) = (x % (2 : Int) ^ (8 * n)).toNat := by
    rw [encInt, beVal_be]
    apply Nat.mod_eq_of_lt
    omega
  rw [hval, scast]
  split
  · omega
  · omega

theorem toSizeT_of_nonneg (x : Int) (h0 : 0 ≤ x) (h1 : x < 2 ^ 64) :
    toSizeT x = x.toNat := by
  rw [toSizeT, Int.emod_eq_of_lt h0 h1]

theorem wrapCast8_eq_scast8 (b : Nat) (hb : b < 256) :
    wrapCast 8 (b : Int) = scast 8 b := by
  rw [wrapCast, scast]
  norm_num
  split <;> omega

theorem wrapCast8_small (t : Nat) (ht : t < 128) : wrapCast 8 (t : Int) = t := by
  rw [wrapCast]
  norm_num
  omega

theorem readBytes_exact {xs : List Nat} {n : Nat} (h : xs.length = n) (r : ByteStream) :
    readBytes n (xs ++ r) = some (xs, r) := by
  subst h
  rw [readBytes, if_pos (by simp)]
  rw [List.take_left, List.drop_left]

theorem readBytes_too_short {s : ByteStream} {n : Nat} (h : s.length < n) :
    readBytes n s = none := by
  rw [readBytes, if_neg (by omega)]

/-! Unfolding rules for the payload encoder in terms of the plain maps. -/

theorem encPayload_list_eq (es : List Node) :
    encPayload (.list es) = elemTagL es :: (encInt 4 es.length ++ encElems es) := by
  rw [encPayload, encElems]
  congr 2
  exact congrArg List.flatten (List.attach_map_val es encPayload)

theorem encPayload_compound_eq (es : List (List Nat × Node)) :
    encPayload (.compound es) = encEntries es ++ [0] := by
  rw [encPayload, encEntries]
  congr 1
  exact congrArg List.flatten (List.attach_map_val es encEntry)

theorem encPayload_byte (v : Int) : encPayload (.byte v) = encInt 1 v := by
  simp [encPayload]

theorem encPayload_short (v : Int) : encPayload (.short v) = encInt 2 v := by
  simp [encPayload]

theorem encPayload_int (v : Int) : encPayload (.int v) = encInt 4 v := by
  simp [encPayload]

theorem encPayload_long (v : Int) : encPayload (.long v) = encInt 8 v := by
  simp [encPayload]

theorem encPayload_float (b : Nat) : encPayload (.float b) = be 4 b := by
  simp [encPayload]

theorem encPayload_double (b : Nat) : encPayload (.double b) = be 8 b := by
  simp [encPayload]

theorem encPayload_string (s : List Nat) :
    encPayload (.string s) = be 2 s.length ++ s := by
  simp [encPayload]

theorem encPayload_byteArray (vs : List Int) :
    encPayload (.byteArray vs)
      = encInt 4 vs.length ++ (vs.map (fun x => encInt 1 x)).flatten := by
  simp [encPayload]

theorem encPayload_intArray (vs : List Int) :
    encPayload (.intArray vs)
      = encInt 4 vs.length ++ (vs.map (fun x => encInt 4 x)).flatten := by
  simp [encPayload]

theorem encPayload_longArray (vs : List Int) :
    encPayload (.longArray vs)
      = encInt 4 vs.length ++ (vs.map (fun x => encInt 8 x)).flatten := by
  simp [encPayload]

/-! Bridges between the small-step relation and fuelled execution. -/

theorem steps_refl (pol : Parsing) (a : Config) : Steps pol a a :=
  Relation.ReflTransGen.refl

theorem steps_single {pol : Parsing} {a b : Config} (h : step pol a = .next b) :
    Steps pol a b :=
  Relation.ReflTransGen.single h

theorem steps_trans {pol : Parsing} {a b c : Config} (h1 : Steps pol a b)
    (h2 : Steps pol b c) : Steps pol a c :=
  Relation.ReflTransGen.trans h1 h2

theorem steps_head {pol : Parsing} {a b c : Config} (h : step pol a = .next b)
    (h2 : Steps pol b c) : Steps pol a c :=
  Relation.ReflTransGen.head h h2

theorem run_of_next {pol : Parsing} {a b : Config} {f : Nat} {o : Outcome}
    (h : step pol a = .next b) (hf : run pol f b = o) : run pol (f + 1) a = o := by
  simp [run, h, hf]

theorem exists_run_of_steps {pol : Parsing} {a b : Config} {o : Outcome}
    (h : Steps pol a b) (ho : ∃ f, run pol f b = o) : ∃ f, run pol f a = o := by
  induction h with
  | refl => exact ho
  | tail _ hstep ih =>
      obtain ⟨f, hf⟩ := ho
      exact ih ⟨f + 1, run_of_next hstep hf⟩

theorem parsesTo_intro {pol : Parsing} {bs : ByteStream} {c : Config} {n : Node}
    {r : ByteStream} (h : Steps pol (initConfig pol bs) c)
    (hd : step pol c = .done n r) : ParsesTo pol bs n r :=
  exists_run_of_steps h ⟨1, by simp [run, hd]⟩

theorem failsWith_intro {pol : Parsing} {bs : ByteStream} {c : Config} {e : Err}
    (h : Steps pol (initConfig pol bs) c) (hd : step pol c = .fail e) :
    FailsWith pol bs e :=
  exists_run_of_steps h ⟨1, by simp [run, hd]⟩

/-! One-step evaluation rules of the automaton, one per switch case. -/

section StepRules

variable (pol : Parsing) (i : ByteStream) (tl : List St) (ret retT : List Node)

theorem step_S_tag (b : Nat) (h1 : 1 ≤ b) (h2 : b ≤ 12) :
    step pol ⟨b :: i, .S :: tl, ret⟩ = .next ⟨i, stateOfTag b :: tl, ret⟩ := by
  simp [step, peekS, transAt, h1, h2, get1]

theorem step_S_bad (b : Nat) (h : ¬(1 ≤ b ∧ b ≤ 12)) :
    step pol ⟨b :: i, .S :: tl, ret⟩ = .fail .outOfRange := by
  simp only [step, peekS, List.head?, transAt]
  rw [if_neg h]

theorem step_S1 (b : Nat) :
    step pol ⟨b :: i, .S1 :: tl, ret⟩ = .next ⟨i, tl, .byte (wrapCast 8 b) :: ret⟩ :=
  rfl

theorem step_S2 (buf : List Nat) (h : buf.length = 2) :
    step pol ⟨buf ++ i, .S2 :: tl, ret⟩
      = .next ⟨i, tl, .short (scast 16 (beVal buf)) :: ret⟩ := by
  simp [step, transAt, readBytes_exact h]

theorem step_S3 (buf : List Nat) (h : buf.length = 4) :
    step pol ⟨buf ++ i, .S3 :: tl, ret⟩
      = .next ⟨i, tl, .int (scast 32 (beVal buf)) :: ret⟩ := by
  simp [step, transAt, readBytes_exact h]

theorem step_S4 (buf : List Nat) (h : buf.length = 8) :
    step pol ⟨buf ++ i, .S4 :: tl, ret⟩
      = .next ⟨i, tl, .long (scast 64 (beVal buf)) :: ret⟩ := by
  simp [step, transAt, readBytes_exact h]

theorem step_S5 (buf : List Nat) (h : buf.length = 4) :
    step pol ⟨buf ++ i, .S5 :: tl, ret⟩
      = .next ⟨i, tl, .float (beVal buf) :: ret⟩ := by
  simp [step, transAt, readBytes_exact h]

theorem step_S6 (buf : List Nat) (h : buf.length = 8) :
    step pol ⟨buf ++ i, .S6 :: tl, ret⟩
      = .next ⟨i, tl, .double (beVal buf) :: ret⟩ := by
  simp [step, transAt, readBytes_exact h]

theorem step_S7 :
    step pol ⟨i, .S7 :: tl, ret⟩ = .next ⟨i, .S3 :: .S7A :: tl, ret⟩ :=
  rfl

theorem step_S7A_pos (len : Int) (hpos : 0 < len) (buf : List Nat)
    (hb : buf.length = len.toNat) :
    step pol ⟨buf ++ i, .S7A :: tl, .int len :: retT⟩
      = .next ⟨i, tl, .byteArray (buf.map (fun b => scast 8 (b % 256))) :: retT⟩ := by
  simp [step, transAt, Node.asInt?, hpos, readBytes_exact hb]

theorem step_S7A_neg (len : Int) (hneg : ¬0 < len) :
    step pol ⟨i, .S7A :: tl, .int len :: retT⟩
      = .next ⟨i, tl, .byteArray [] :: retT⟩ := by
  simp [step, transAt, Node.asInt?, hneg]

theorem step_S8 :
    step pol ⟨i, .S8 :: tl, ret⟩ = .next ⟨i, .S2 :: .S8A :: tl, ret⟩ :=
  rfl

theorem step_S8A (s : Int) (buf : List Nat) (hb : buf.length = toSizeT s) :
    step pol ⟨buf ++ i, .S8A :: tl, .short s :: retT⟩
      = .next ⟨i, tl, .string buf :: retT⟩ := by
  simp [step, transAt, Node.asShort?, readBytes_exact hb]

theorem step_S8A_trunc (s : Int) (h : i.length < toSizeT s) :
    step pol ⟨i, .S8A :: tl, .short s :: retT⟩ = .fail .truncated := by
  simp [step, transAt, Node.asShort?, readBytes_too_short h]

theorem step_S9 :
    step pol ⟨i, .S9 :: tl, ret⟩
      = .next ⟨i, .S1 :: .S3 :: .S9A :: tl, .list [] :: ret⟩ :=
  rfl

theorem step_S9A_reserve (count : Int) (tag : Int) (acc : List Node)
    (h : count < 0) :
    step pol ⟨i, .S9A :: tl, .int count :: .byte tag :: .list acc :: retT⟩
      = .fail .lengthError := by
  simp [step, transAt, Node.asInt?, Node.asByte?, Node.asList?, h]

theorem step_S9A_enter (count : Int) (tag : Int) (acc : List Node)
    (h0 : ¬count < 0) (h1 : 0 < count) (h2 : tag ≠ 0) :
    step pol ⟨i, .S9A :: tl, .int count :: .byte tag :: .list acc :: retT⟩
      = .next ⟨i, stateOfTag tag :: .S9B :: tl,
          .int count :: .byte tag :: .list acc :: retT⟩ := by
  simp [step, transAt, Node.asInt?, Node.asByte?, Node.asList?, h0, h1, h2]

theorem step_S9A_empty (count : Int) (tag : Int) (acc : List Node)
    (h0 : ¬count < 0) (h1 : ¬(0 < count ∧ tag ≠ 0)) :
    step pol ⟨i, .S9A :: tl, .int count :: .byte tag :: .list acc :: retT⟩
      = .next ⟨i, tl, .list acc :: retT⟩ := by
  simp [step, transAt, Node.asInt?, Node.asByte?, Node.asList?, h0, h1]

theorem step_S9B_more (v : Node) (cnt : Int) (tag : Int) (acc : List Node)
    (h : 0 < cnt - 1) :
    step pol ⟨i, .S9B :: tl, v :: .int cnt :: .byte tag :: .list acc :: retT⟩
      = .next ⟨i, stateOfTag tag :: .S9B :: tl,
          .int (cnt - 1) :: .byte tag :: .list (acc ++ [v]) :: retT⟩ := by
  simp [step, transAt, Node.asInt?, Node.asByte?, Node.asList?, h]

theorem step_S9B_last (v : Node) (cnt : Int) (tag : Int) (acc : List Node)
    (h : ¬0 < cnt - 1) :
    step pol ⟨i, .S9B :: tl, v :: .int cnt :: .byte tag :: .list acc :: retT⟩
      = .next ⟨i, tl, .list (acc ++ [v]) :: retT⟩ := by
  simp [step, transAt, Node.asInt?, Node.asByte?, Node.asList?, h]

theorem step_SA :
    step pol ⟨i, .SA :: tl, ret⟩ = .next ⟨i, .NTS :: tl, .compound [] :: ret⟩ :=
  rfl

theorem step_NTS_entry (b : Nat) (hb : b ≠ 0) :
    step pol ⟨b :: i, .NTS :: tl, ret⟩
      = .next ⟨b :: i, .S1 :: .S8 :: .NT :: tl, ret⟩ := by
  cases b with
  | zero => exact absurd rfl hb
  | succ m => rfl

theorem step_NTS_end :
    step pol ⟨0 :: i, .NTS :: tl, ret⟩ = .next ⟨i, tl, ret⟩ :=
  rfl

theorem step_NTS_eof_implicit (n : Node) :
    step .implicit_compound ⟨[], .NTS :: tl, n :: retT⟩ = .done n [] :=
  rfl

theorem step_NT (f : Node) (tag : Int) :
    step pol ⟨i, .NT :: tl, f :: .byte tag :: retT⟩
      = .next ⟨i, stateOfTag tag :: .SAB :: tl, f :: .byte tag :: retT⟩ :=
  rfl

theorem step_SAB (v : Node) (k : List Nat) (tn : Node) (m : List (List Nat × Node)) :
    step pol ⟨i, .SAB :: tl, v :: .string k :: tn :: .compound m :: retT⟩
      = .next ⟨i, .NTS :: tl, .compound (insertFW m k v) :: retT⟩ :=
  rfl

theorem step_SB :
    step pol ⟨i, .SB :: tl, ret⟩ = .next ⟨i, .S3 :: .SBA :: tl, ret⟩ :=
  rfl

theorem step_SBA_pos (count : Int) (hpos : 0 < count) (buf : List Nat)
    (hb : buf.length = count.toNat * 4) :
    step pol ⟨buf ++ i, .SBA :: tl, .int count :: retT⟩
      = .next ⟨i, tl, .intArray (readInts 4 32 count.toNat buf) :: retT⟩ := by
  simp [step, transAt, Node.asInt?, hpos, readBytes_exact hb]

theorem step_SBA_neg (count : Int) (hneg : ¬0 < count) :
    step pol ⟨i, .SBA :: tl, .int count :: retT⟩
      = .next ⟨i, tl, .intArray [] :: retT⟩ := by
  simp [step, transAt, Node.asInt?, hneg]

theorem step_SC :
    step pol ⟨i, .SC :: tl, ret⟩ = .next ⟨i, .S3 :: .SCA :: tl, ret⟩ :=
  rfl

theorem step_SCA_pos (count : Int) (hpos : 0 < count) (buf : List Nat)
    (hb : buf.length = count.toNat * 8) :
    step pol ⟨buf ++ i, .SCA :: tl, .int count :: retT⟩
      = .next ⟨i, tl, .longArray (readInts 8 64 count.toNat buf) :: retT⟩ := by
  simp [step, transAt, Node.asInt?, hpos, readBytes_exact hb]

theorem step_SCA_neg (count : Int) (hneg : ¬0 < count) :
    step pol ⟨i, .SCA :: tl, .int count :: retT⟩
      = .next ⟨i, tl, .longArray [] :: retT⟩ := by
  simp [step, transAt, Node.asInt?, hneg]

theorem step_F_done (n : Node) :
    step pol ⟨[], .F :: tl, n :: retT⟩ = .done n [] :=
  rfl

theorem step_F_byte (b : Nat) :
    step pol ⟨b :: i, .F :: tl, ret⟩ = .fail .outOfRange :=
  rfl

end StepRules

/-! Round-trip facts connecting the encoder to the decoding casts. -/

theorem encInt_one (x : Int) : encInt 1 x = [(x % 256).toNat] := by
  have h0 : 0 ≤ x % 256 := Int.emod_nonneg x (by norm_num)
  have h1 : x % 256 < 256 := Int.emod_lt_of_pos x (by norm_num)
  simp only [encInt, be]
  norm_num
  omega

theorem byte_roundtrip (v : Int) (h1 : -128 ≤ v) (h2 : v < 128) :
    wrapCast 8 (((v % 256).toNat : Int)) = v := by
  rw [wrapCast]
  norm_num
  omega

theorem byte_roundtrip_scast (v : Int) (h1 : -128 ≤ v) (h2 : v < 128) :
    scast 8 ((v % 256).toNat % 256) = v := by
  rw [scast]
  norm_num
  split <;> omega

theorem encInt_natCast (n : Nat) (L : Nat) (h : L < 2 ^ (8 * n)) :
    encInt n (L : Int) = be n L := by
  rw [encInt]
  congr 1
  have hcast : (((2 : Nat) ^ (8 * n) : Nat) : Int) = (2 : Int) ^ (8 * n) := by
    push_cast
    ring
  have hlt : (L : Int) < (2 : Int) ^ (8 * n) := by omega
  rw [Int.emod_eq_of_lt (by positivity) hlt]
  omega

theorem scast16_beVal_be2 (L : Nat) (h : L < 2 ^ 15) :
    scast 16 (beVal (be 2 L)) = (L : Int) := by
  rw [beVal_be, scast]
  have he : (8 : Nat) * 2 = 16 := by norm_num
  rw [he, Nat.mod_eq_of_lt (by omega)]
  rw [if_pos (by omega)]

theorem scast32_beVal_be4 (L : Nat) (h : L < 2 ^ 31) :
    scast 32 (beVal (be 4 L)) = (L : Int) := by
  rw [beVal_be, scast]
  have he : (8 : Nat) * 4 = 32 := by norm_num
  rw [he, Nat.mod_eq_of_lt (by omega)]
  rw [if_pos (by omega)]

theorem tagOf_pos (e : Node) : 1 ≤ tagOf e := by
  cases e <;> simp [tagOf]

theorem tagOf_le (e : Node) : tagOf e ≤ 12 := by
  cases e <;> simp [tagOf]

theorem elemTagL_le (es : List Node) : elemTagL es ≤ 12 := by
  cases es with
  | nil => simp [elemTagL]
  | cons e _ => exact tagOf_le e

theorem encElems_nil : encElems [] = [] := rfl

theorem encElems_cons (e : Node) (es : List Node) :
    encElems (e :: es) = encPayload e ++ encElems es := by
  simp [encElems]

theorem encEntries_nil : encEntries [] = [] := rfl

theorem encEntries_cons (kv : List Nat × Node) (es : List (List Nat × Node)) :
    encEntries (kv :: es) = encEntry kv ++ encEntries es := by
  simp [encEntries]

theorem fwFold_nil (acc : List (List Nat × Node)) : fwFold acc [] = acc := rfl

theorem fwFold_cons (acc : List (List Nat × Node)) (kv : List Nat × Node)
    (es : List (List Nat × Node)) :
    fwFold acc (kv :: es) = fwFold (insertFW acc kv.1 kv.2) es := rfl

theorem insertFW_of_not_mem (m : List (List Nat × Node)) (k : List Nat) (v : Node)
    (h : ∀ p ∈ m, p.1 ≠ k) : insertFW m k v = m ++ [(k, v)] := by
  rw [insertFW, if_neg]
  simp only [List.any_eq_true, not_exists]
  intro p
  simp only [not_and, beq_iff_eq]
  exact fun hp => h p hp

theorem fwFold_of_nodup (es : List (List Nat × Node)) :
    ∀ acc, (((acc ++ es).map Prod.fst).Nodup) → fwFold acc es = acc ++ es := by
  induction es with
  | nil => intro acc _; simp [fwFold_nil]
  | cons kv es ih =>
      intro acc h
      have hnm : ∀ p ∈ acc, p.1 ≠ kv.1 := by
        intro p hp heq
        rw [List.map_append, List.nodup_append] at h
        exact h.2.2 (List.mem_map_of_mem Prod.fst hp) (by simp [heq])
      rw [fwFold_cons, insertFW_of_not_mem _ _ _ hnm]
      have heq : (acc ++ [kv]) ++ es = acc ++ kv :: es := by simp
      rw [ih (acc ++ [kv]) (by rw [heq]; exact h), heq]

/-! Decoding the framed integer arrays back to their values. -/

theorem flatten_map_encInt_length (n : Nat) (vs : List Int) :
    ((vs.map (fun x => encInt n x)).flatten).length = vs.length * n := by
  induction vs with
  | nil => simp
  | cons x vs ih => simp [ih, encInt_length, Nat.succ_mul, Nat.add_comm]

theorem take_encInt (n : Nat) (x : Int) (r : List Nat) :
    List.take n (encInt n x ++ r) = encInt n x := by
  have h := List.take_left (encInt n x) r
  rwa [encInt_length] at h

theorem drop_encInt (n : Nat) (x : Int) (r : List Nat) :
    List.drop n (encInt n x ++ r) = r := by
  have h := List.drop_left (encInt n x) r
  rwa [encInt_length] at h

theorem readInts_encInt (n w : Nat) (hw : 8 * n = w) (hn : 0 < n) (vs : List Int)
    (hb : ∀ x ∈ vs, -(2 ^ (w - 1)) ≤ x ∧ x < 2 ^ (w - 1)) :
    readInts n w vs.length ((vs.map (fun x => encInt n x)).flatten) = vs := by
  induction vs with
  | nil => simp [readInts]
  | cons x vs ih =>
      simp only [List.map_cons, List.flatten_cons, List.length_cons, readInts]
      rw [take_encInt, drop_encInt]
      have hx := hb x (List.mem_cons_self x vs)
      rw [scast_encInt n w x hw hn hx.1 hx.2]
      rw [ih (fun y hy => hb y (List.mem_cons_of_mem x hy))]

theorem decodeBytes (vs : List Int) (hb : ∀ x ∈ vs, -128 ≤ x ∧ x < 128) :
    ((vs.map (fun x => encInt 1 x)).flatten).map (fun b => scast 8 (b % 256)) = vs := by
  induction vs with
  | nil => simp
  | cons x vs ih =>
      have hx := hb x (List.mem_cons_self x vs)
      simp only [List.map_cons, List.flatten_cons]
      rw [List.map_append, ih (fun y hy => hb y (List.mem_cons_of_mem x hy))]
      rw [encInt_one]
      simp only [List.map_cons, List.map_nil]
      rw [byte_roundtrip_scast x hx.1 hx.2]
      simp

/-- Loop of cases 9B and 9C: a nonempty homogeneous run of encoded
elements is consumed one by one, each appended to the accumulating list
node, and the count node is decremented to zero. -/
theorem listLoopSteps (pol : Parsing) (t : Nat) :
    ∀ es : List Node, (∀ e ∈ es, tagOf e = t) →
      (∀ e ∈ es, ∀ rest ss ret,
        Steps pol ⟨encPayload e ++ rest, stateOfTag (tagOf e) :: ss, ret⟩
          ⟨rest, ss, e :: ret⟩) →
      ∀ acc rest ss ret, es ≠ [] →
        Steps pol ⟨encElems es ++ rest, stateOfTag (t : Int) :: .S9B :: ss,
            .int es.length :: .byte (t : Int) :: .list acc :: ret⟩
          ⟨rest, ss, .list (acc ++ es) :: ret⟩ := by
  intro es
  induction es with
  | nil => intro _ _ acc rest ss ret h; exact absurd rfl h
  | cons e es ih =>
      intro ht hdec acc rest ss ret _
      rw [encElems_cons, List.append_assoc]
      have he := hdec e (List.mem_cons_self e es) (encElems es ++ rest) (.S9B :: ss)
        (.int (e :: es).length :: .byte (t : Int) :: .list acc :: ret)
      rw [ht e (List.mem_cons_self e es)] at he
      refine steps_trans he ?_
      by_cases hes : es = []
      · subst hes
        have hlast := step_S9B_last pol (encElems [] ++ rest) ss ret e
          ((e :: ([] : List Node)).length : Int) (t : Int) acc (by simp)
        rw [encElems_nil, List.nil_append] at hlast
        simpa using steps_single hlast
      · have hlen : 0 < es.length := List.length_pos.2 hes
        have hmore := step_S9B_more pol (encElems es ++ rest) ss ret e
          ((e :: es).length : Int) (t : Int) acc (by simp; omega)
        have hc : ((e :: es).length : Int) - 1 = (es.length : Int) := by
          simp
        rw [hc] at hmore
        refine steps_head hmore ?_
        have := ih (fun x hx => ht x (List.mem_cons_of_mem e hx))
          (fun x hx => hdec x (List.mem_cons_of_mem e hx))
          (acc ++ [e]) rest ss ret hes
        simpa [List.append_assoc] using this

/-- Loop of states NTS, NT and SAB: a run of encoded named entries is
consumed, each name read through the String machinery and each value
through its payload states, and the pairs are inserted first-write-wins
into the accumulating compound node. -/
theorem entriesLoopSteps (pol : Parsing) :
    ∀ es : List (List Nat × Node), (∀ kv ∈ es, kv.1.length < 2 ^ 15) →
      (∀ kv ∈ es, ∀ rest ss ret,
        Steps pol ⟨encPayload kv.2 ++ rest, stateOfTag (tagOf kv.2) :: ss, ret⟩
          ⟨rest, ss, kv.2 :: ret⟩) →
      ∀ acc rest ss ret,
        Steps pol ⟨encEntries es ++ rest, .NTS :: ss, .compound acc :: ret⟩
          ⟨rest, .NTS :: ss, .compound (fwFold acc es) :: ret⟩ := by
  intro es
  induction es with
  | nil =>
      intro _ _ acc rest ss ret
      rw [encEntries_nil, List.nil_append, fwFold_nil]
      exact steps_refl pol _
  | cons kv es ih =>
      intro hk hdec acc rest ss ret
      obtain ⟨k, v⟩ := kv
      rw [encEntries_cons]
      simp only [encEntry, List.cons_append, List.append_assoc]
      have htv1 : 1 ≤ tagOf v := tagOf_pos v
      have htv12 : tagOf v ≤ 12 := tagOf_le v
      refine steps_head
        (step_NTS_entry pol
          (be 2 k.length ++ (k ++ (encPayload v ++ (encEntries es ++ rest))))
          ss (.compound acc :: ret) (tagOf v) (by omega)) ?_
      refine steps_head
        (step_S1 pol
          (be 2 k.length ++ (k ++ (encPayload v ++ (encEntries es ++ rest))))
          (.S8 :: .NT :: ss) (.compound acc :: ret) (tagOf v)) ?_
      rw [wrapCast8_small (tagOf v) (by omega)]
      refine steps_head (step_S8 pol _ _ _) ?_
      have h2 := step_S2 pol (k ++ (encPayload v ++ (encEntries es ++ rest)))
        (.S8A :: .NT :: ss) (.byte (tagOf v) :: .compound acc :: ret)
        (be 2 k.length) (be_length 2 k.length)
      rw [scast16_beVal_be2 k.length (hk ⟨k, v⟩ (List.mem_cons_self _ es))] at h2
      refine steps_head h2 ?_
      have hsz : k.length = toSizeT (k.length : Int) := by
        have h15 : k.length < 2 ^ 15 := hk ⟨k, v⟩ (List.mem_cons_self _ es)
        rw [toSizeT_of_nonneg (k.length : Int) (by omega) (by omega)]
        omega
      refine steps_head
        (step_S8A pol (encPayload v ++ (encEntries es ++ rest)) (.NT :: ss)
          (.byte (tagOf v) :: .compound acc :: ret) (k.length : Int) k hsz) ?_
      refine steps_head
        (step_NT pol (encPayload v ++ (encEntries es ++ rest)) ss
          (.compound acc :: ret) (.string k) (tagOf v)) ?_
      refine steps_trans
        (hdec ⟨k, v⟩ (List.mem_cons_self _ es) (encEntries es ++ rest)
          (.SAB :: ss)
          (.string k :: .byte (tagOf v) :: .compound acc :: ret)) ?_
      refine steps_head
        (step_SAB pol (encEntries es ++ rest) ss ret v k (.byte (tagOf v)) acc) ?_
      rw [fwFold_cons]
      exact ih (fun x hx => hk x (List.mem_cons_of_mem _ hx))
        (fun x hx => hdec x (List.mem_cons_of_mem _ hx))
        (insertFW acc k v) rest ss ret

/-- Decode correctness of the push-down automaton: from the payload state
of its tag, a well-formed node's encoded payload is consumed exactly and
the node is pushed on the result deque, for both policies and any
continuation stack. -/
theorem decodeSteps (pol : Parsing) {n : Node} (hwf : WF n) :
    ∀ rest ss ret,
      Steps pol ⟨encPayload n ++ rest, stateOfTag (tagOf n) :: ss, ret⟩
        ⟨rest, ss, n :: ret⟩ := by
  induction hwf with
  | byte v h1 h2 =>
      intro rest ss ret
      have hst : stateOfTag (tagOf (Node.byte v)) = .S1 := by
        simp [tagOf, stateOfTag]
      rw [hst, encPayload_byte]
      rw [encInt_one, List.cons_append, List.nil_append]
      have h := step_S1 pol rest ss ret ((v % 256).toNat)
      rw [byte_roundtrip v h1 h2] at h
      exact steps_single h
  | short v h1 h2 =>
      intro rest ss ret
      have hst : stateOfTag (tagOf (Node.short v)) = .S2 := by
        simp [tagOf, stateOfTag]
      rw [hst, encPayload_short]
      have h := step_S2 pol rest ss ret (encInt 2 v) (encInt_length 2 v)
      rw [scast_encInt 2 16 v (by norm_num) (by norm_num) h1 h2] at h
      exact steps_single h
  | int v h1 h2 =>
      intro rest ss ret
      have hst : stateOfTag (tagOf (Node.int v)) = .S3 := by
        simp [tagOf, stateOfTag]
      rw [hst, encPayload_int]
      have h := step_S3 pol rest ss ret (encInt 4 v) (encInt_length 4 v)
      rw [scast_encInt 4 32 v (by norm_num) (by norm_num) h1 h2] at h
      exact steps_single h
  | long v h1 h2 =>
      intro rest ss ret
      have hst : stateOfTag (tagOf (Node.long v)) = .S4 := by
        simp [tagOf, stateOfTag]
      rw [hst, encPayload_long]
      have h := step_S4 pol rest ss ret (encInt 8 v) (encInt_length 8 v)
      rw [scast_encInt 8 64 v (by norm_num) (by norm_num) h1 h2] at h
      exact steps_single h
  | float b hb =>
      intro rest ss ret
      have hst : stateOfTag (tagOf (Node.float b)) = .S5 := by
        simp [tagOf, stateOfTag]
      rw [hst, encPayload_float]
      have h := step_S5 pol rest ss ret (be 4 b) (be_length 4 b)
      rw [beVal_be, Nat.mod_eq_of_lt (by omega)] at h
      exact steps_single h
  | double b hb =>
      intro rest ss ret
      have hst : stateOfTag (tagOf (Node.double b)) = .S6 := by
        simp [tagOf, stateOfTag]
      rw [hst, encPayload_double]
      have h := step_S6 pol rest ss ret (be 8 b) (be_length 8 b)
      rw [beVal_be, Nat.mod_eq_of_lt (by omega)] at h
      exact steps_single h
  | string s hs =>
      intro rest ss ret
      have hst : stateOfTag (tagOf (Node.string s)) = .S8 := by
        simp [tagOf, stateOfTag]
      rw [hst, encPayload_string]
      rw [List.append_assoc]
      refine steps_head (step_S8 pol _ _ _) ?_
      have h2 := step_S2 pol (s ++ rest) (.S8A :: ss) ret (be 2 s.length)
        (be_length 2 s.length)
      rw [scast16_beVal_be2 s.length hs] at h2
      refine steps_head h2 ?_
      have hsz : s.length = toSizeT (s.length : Int) := by
        rw [toSizeT_of_nonneg (s.length : Int) (by omega) (by omega)]
        omega
      exact steps_single (step_S8A pol rest ss ret (s.length : Int) s hsz)
  | byteArray vs hlen hb =>
      intro rest ss ret
      have hst : stateOfTag (tagOf (Node.byteArray vs)) = .S7 := by
        simp [tagOf, stateOfTag]
      rw [hst, encPayload_byteArray]
      rw [encInt_natCast 4 vs.length (by omega), List.append_assoc]
      refine steps_head (step_S7 pol _ _ _) ?_
      have h3 := step_S3 pol ((vs.map (fun x => encInt 1 x)).flatten ++ rest)
        (.S7A :: ss) ret (be 4 vs.length) (be_length 4 vs.length)
      rw [scast32_beVal_be4 vs.length hlen] at h3
      refine steps_head h3 ?_
      cases vs with
      | nil =>
          simp only [List.map_nil, List.flatten_nil, List.nil_append,
            List.length_nil, Nat.cast_zero]
          exact steps_single (step_S7A_neg pol rest ss ret 0 (by norm_num))
      | cons x vs2 =>
          have hpos : (0 : Int) < ((x :: vs2).length : Nat) := by
            simp
          have hlb : ((vs2.length + 1) : Nat) = (((x :: vs2).length : Int)).toNat := by
            simp
          have h4 := step_S7A_pos pol rest ss ret ((x :: vs2).length : Int) hpos
            (((x :: vs2).map (fun x => encInt 1 x)).flatten)
            (by rw [flatten_map_encInt_length]; simp)
          rw [decodeBytes (x :: vs2) hb] at h4
          exact steps_single h4
  | intArray vs hlen hb =>
      intro rest ss ret
      have hst : stateOfTag (tagOf (Node.intArray vs)) = .SB := by
        simp [tagOf, stateOfTag]
      rw [hst, encPayload_intArray]
      rw [encInt_natCast 4 vs.length (by omega), List.append_assoc]
      refine steps_head (step_SB pol _ _ _) ?_
      have h3 := step_S3 pol ((vs.map (fun x => encInt 4 x)).flatten ++ rest)
        (.SBA :: ss) ret (be 4 vs.length) (be_length 4 vs.length)
      rw [scast32_beVal_be4 vs.length (by omega)] at h3
      refine steps_head h3 ?_
      cases vs with
      | nil =>
          simp only [List.map_nil, List.flatten_nil, List.nil_append,
            List.length_nil, Nat.cast_zero]
          exact steps_single (step_SBA_neg pol rest ss ret 0 (by norm_num))
      | cons x vs2 =>
          have hpos : (0 : Int) < ((x :: vs2).length : Nat) := by simp
          have h4 := step_SBA_pos pol rest ss ret ((x :: vs2).length : Int) hpos
            (((x :: vs2).map (fun x => encInt 4 x)).flatten)
            (by rw [flatten_map_encInt_length]; simp)
          have hrd : readInts 4 32 (((x :: vs2).length : Int)).toNat
              (((x :: vs2).map (fun x => encInt 4 x)).flatten) = x :: vs2 := by
            have : (((x :: vs2).length : Int)).toNat = (x :: vs2).length := by simp
            rw [this]
            exact readInts_encInt 4 32 (by norm_num) (by norm_num) (x :: vs2) hb
          rw [hrd] at h4
          exact steps_single h4
  | longArray vs hlen hb =>
      intro rest ss ret
      have hst : stateOfTag (tagOf (Node.longArray vs)) = .SC := by
        simp [tagOf, stateOfTag]
      rw [hst, encPayload_longArray]
      rw [encInt_natCast 4 vs.length (by omega), List.append_assoc]
      refine steps_head (step_SC pol _ _ _) ?_
      have h3 := step_S3 pol ((vs.map (fun x => encInt 8 x)).flatten ++ rest)
        (.SCA :: ss) ret (be 4 vs.length) (be_length 4 vs.length)
      rw [scast32_beVal_be4 vs.length (by omega)] at h3
      refine steps_head h3 ?_
      cases vs with
      | nil =>
          simp only [List.map_nil, List.flatten_nil, List.nil_append,
            List.length_nil, Nat.cast_zero]
          exact steps_single (step_SCA_neg pol rest ss ret 0 (by norm_num))
      | cons x vs2 =>
          have hpos : (0 : Int) < ((x :: vs2).length : Nat) := by simp
          have h4 := step_SCA_pos pol rest ss ret ((x :: vs2).length : Int) hpos
            (((x :: vs2).map (fun x => encInt 8 x)).flatten)
            (by rw [flatten_map_encInt_length]; simp)
          have hrd : readInts 8 64 (((x :: vs2).length : Int)).toNat
              (((x :: vs2).map (fun x => encInt 8 x)).flatten) = x :: vs2 := by
            have : (((x :: vs2).length : Int)).toNat = (x :: vs2).length := by simp
            rw [this]
            exact readInts_encInt 8 64 (by norm_num) (by norm_num) (x :: vs2) hb
          rw [hrd] at h4
          exact steps_single h4
  | list es hlen htag hwfall ih =>
      intro rest ss ret
      have hst : stateOfTag (tagOf (Node.list es)) = .S9 := by
        simp [tagOf, stateOfTag]
      rw [hst, encPayload_list_eq]
      rw [List.cons_append, List.append_assoc]
      refine steps_head (step_S9 pol _ _ _) ?_
      refine steps_head
        (step_S1 pol (encInt 4 es.length ++ (encElems es ++ rest))
          (.S3 :: .S9A :: ss) (.list [] :: ret) (elemTagL es)) ?_
      rw [wrapCast8_small (elemTagL es) (by have := elemTagL_le es; omega)]
      rw [encInt_natCast 4 es.length (by omega)]
      have h3 := step_S3 pol (encElems es ++ rest) (.S9A :: ss)
        (.byte (elemTagL es) :: .list [] :: ret) (be 4 es.length)
        (be_length 4 es.length)
      rw [scast32_beVal_be4 es.length hlen] at h3
      refine steps_head h3 ?_
      cases es with
      | nil =>
          simp only [List.length_nil, Nat.cast_zero, encElems_nil, List.nil_append]
          exact steps_single
            (step_S9A_empty pol rest ss ret 0 (elemTagL []) [] (by norm_num)
              (by norm_num))
      | cons e es2 =>
          have htE : (1 : Nat) ≤ tagOf e := tagOf_pos e
          have hT : elemTagL (e :: es2) = tagOf e := rfl
          refine steps_head
            (step_S9A_enter pol (encElems (e :: es2) ++ rest) ss ret
              ((e :: es2).length : Int) (elemTagL (e :: es2)) []
              (by simp only [List.length_cons]; push_cast; omega)
              (by simp only [List.length_cons]; push_cast; omega)
              (by rw [hT]; omega)) ?_
          have hloop := listLoopSteps pol (elemTagL (e :: es2)) (e :: es2) htag
            (fun x hx => ih x hx) [] rest ss ret (by simp)
          simpa using hloop
  | compound es hnd hklen hwfall ih =>
      intro rest ss ret
      have hst : stateOfTag (tagOf (Node.compound es)) = .SA := by
        simp [tagOf, stateOfTag]
      rw [hst, encPayload_compound_eq, List.append_assoc, List.cons_append,
        List.nil_append]
      refine steps_head (step_SA pol _ _ _) ?_
      refine steps_trans
        (entriesLoopSteps pol es hklen (fun kv hkv => ih kv hkv) [] (0 :: rest)
          ss ret) ?_
      refine steps_head (step_NTS_end pol rest ss (.compound (fwFold [] es) :: ret)) ?_
      rw [fwFold_of_nodup es [] (by simpa using hnd)]
      simp only [List.nil_append]
      exact steps_refl pol _

/-! Lookup facts about first-write-wins folding. -/

theorem lookupA_nil (k : List Nat) : lookupA [] k = none := rfl

theorem lookupA_cons (k1 : List Nat) (v1 : Node) (es : List (List Nat × Node))
    (k : List Nat) :
    lookupA ((k1, v1) :: es) k = if k1 == k then some v1 else lookupA es k := by
  by_cases h : k1 == k
  · rw [lookupA, List.find?_cons_of_pos _ (by simpa using h), if_pos h]
    rfl
  · rw [lookupA, List.find?_cons_of_neg _ (by simpa using h), if_neg h]
    rfl

theorem lookupA_append (a b : List (List Nat × Node)) (k : List Nat) :
    lookupA (a ++ b) k = (lookupA a k).or (lookupA b k) := by
  rw [lookupA, lookupA, lookupA, List.find?_append]
  cases a.find? (fun p => p.1 == k) <;> simp

theorem lookupA_isSome_of_mem (m : List (List Nat × Node)) (k : List Nat)
    (h : ∃ p ∈ m, p.1 = k) : (lookupA m k).isSome := by
  rw [lookupA]
  obtain ⟨p, hp, hpk⟩ := h
  have : (m.find? (fun p => p.1 == k)).isSome := by
    rw [List.find?_isSome]
    exact ⟨p, hp, by simp [hpk]⟩
  cases hfind : m.find? (fun p => p.1 == k) with
  | none => rw [hfind] at this; simp at this
  | some q => simp

theorem lookupA_eq_none_of_not_mem (m : List (List Nat × Node)) (k : List Nat)
    (h : ∀ p ∈ m, ¬p.1 = k) : lookupA m k = none := by
  rw [lookupA, List.find?_eq_none.2 (fun p hp => by simpa using h p hp)]
  rfl

theorem lookupA_fwFold (es : List (List Nat × Node)) :
    ∀ acc k, lookupA (fwFold acc es) k = (lookupA acc k).or (lookupA es k) := by
  induction es with
  | nil =>
      intro acc k
      rw [fwFold_nil, lookupA_nil]
      cases lookupA acc k <;> rfl
  | cons kv es ih =>
      intro acc k
      obtain ⟨k1, v1⟩ := kv
      rw [fwFold_cons, ih, lookupA_cons]
      by_cases hin : acc.any (fun p => p.1 == k1)
      · rw [show insertFW acc k1 v1 = acc from by rw [insertFW, if_pos hin]]
        by_cases hkk : k1 == k
        · have hk : k1 = k := by simpa using hkk
          have hsome : (lookupA acc k).isSome := by
            apply lookupA_isSome_of_mem
            obtain ⟨p, hp, hpk⟩ := List.any_eq_true.1 hin
            exact ⟨p, hp, by subst hk; simpa using hpk⟩
          obtain ⟨w, hw⟩ := Option.isSome_iff_exists.1 hsome
          rw [hw, if_pos hkk]
          rfl
        · rw [if_neg hkk]
      · rw [show insertFW acc k1 v1 = acc ++ [(k1, v1)] from by
          rw [insertFW, if_neg hin]]
        rw [lookupA_append]
        have hany : ∀ p ∈ acc, ¬(p.1 == k1) := by
          intro p hp
          intro hcon
          exact hin (List.any_eq_true.2 ⟨p, hp, hcon⟩)
        by_cases hkk : k1 == k
        · have hk : k1 = k := by simpa using hkk
          have hnone : lookupA acc k = none := by
            apply lookupA_eq_none_of_not_mem
            intro p hp hcon
            exact hany p hp (by simp [hcon, hk])
          rw [hnone, lookupA_cons, lookupA_nil, if_pos hkk, if_pos hkk]
          rfl
        · rw [lookupA_cons, lookupA_nil, if_neg hkk, if_neg hkk, Option.or_none]

/-!
Container view layer (include/nbt_utilities.hpp). The list view
detail::list_wrapper stores one pointer to the wrapped list, itself a
vector of type-erased owning pointers; iteration dereferences each
erased pointer to the stored variant. The comparison operator first
tests pointer equality of the wrapped lists and only otherwise runs
the four-iterator std::equal over both dereferenced sequences. The
variant comparison this traversal applies never follows the erased
pointers held INSIDE a List or Compound alternative: std::unique_ptr
compares by raw address. The stored variants are therefore modelled
with explicit child addresses in the container alternatives.
-/

/-- A stored node as the view layer sees it in memory: one value of the
node variant. The List alternative holds the vector of erased child
pointers and the Compound alternative maps each key to such a pointer;
both are represented by the raw child addresses. The remaining
alternatives hold their values, Float and Double as raw bit patterns. -/
inductive HNode where
  | byte (v : Int)
  | short (v : Int)
  | int (v : Int)
  | long (v : Int)
  | float (bits : Nat)
  | double (bits : Nat)
  | byteArray (vs : List Int)
  | string (s : List Nat)
  | list (ptrs : List Nat)
  | compound (entries : List (List Nat × Nat))
  | intArray (vs : List Int)
  | longArray (vs : List Int)
deriving Repr, DecidableEq

/-- NaN test on a binary32 bit pattern: exponent bits all ones and a
nonzero mantissa. -/
def isNaN32 (bits : Nat) : Prop :=
  (bits / 2 ^ 23) % 2 ^ 8 = 0xFF ∧ bits % 2 ^ 23 ≠ 0

/-- Zero test on a binary32 bit pattern: positive or negative zero. -/
def isZero32 (bits : Nat) : Prop := bits % 2 ^ 31 = 0

/-- IEEE-754 comparison of two binary32 values through their patterns:
false when either side is NaN, else true exactly when the patterns
coincide or both are zeros; finite nonzero values have unique
patterns. -/
def fltEq32 (x y : Nat) : Prop :=
  ¬isNaN32 x ∧ ¬isNaN32 y ∧ (x = y ∨ (isZero32 x ∧ isZero32 y))

/-- NaN test on a binary64 bit pattern. -/
def isNaN64 (bits : Nat) : Prop :=
  (bits / 2 ^ 52) % 2 ^ 11 = 0x7FF ∧ bits % 2 ^ 52 ≠ 0

/-- Zero test on a binary64 bit pattern. -/
def isZero64 (bits : Nat) : Prop := bits % 2 ^ 63 = 0

/-- IEEE-754 comparison of two binary64 values through their patterns. -/
def fltEq64 (x y : Nat) : Prop :=
  ¬isNaN64 x ∧ ¬isNaN64 y ∧ (x = y ∨ (isZero64 x ∧ isZero64 y))

/-- A stored node carries no NaN pattern, so comparing it with itself
succeeds. -/
def NaNFree : HNode → Prop
  | .float b => ¬isNaN32 b
  | .double b => ¬isNaN64 b
  | _ => True

/-- The element equality the std::equal traversal applies to two
dereferenced variants: equal alternative index first; then integers,
byte buffers, strings and the primitive arrays compare by value, Float
and Double by IEEE equality of the held values, the List alternative by
its vector of erased child pointers, element-wise unique_ptr address
equality, and the Compound alternative by unordered-map equality of key
to child address (equal size, every entry matched by key with the same
mapped pointer). The children behind the addresses are never followed. -/
def hnodeEq : HNode → HNode → Prop
  | .byte a, .byte b => a = b
  | .short a, .short b => a = b
  | .int a, .int b => a = b
  | .long a, .long b => a = b
  | .float a, .float b => fltEq32 a b
  | .double a, .double b => fltEq64 a b
  | .byteArray a, .byteArray b => a = b
  | .string a, .string b => a = b
  | .list ps, .list qs => ps = qs
  | .compound xs, .compound ys =>
      xs.length = ys.length ∧ ∀ kp ∈ xs, ∃ kq ∈ ys, kq.1 = kp.1 ∧ kq.2 = kp.2
  | .intArray a, .intArray b => a = b
  | .longArray a, .longArray b => a = b
  | _, _ => False

/-- Equality of two dereferenced sequences as the four-iterator
std::equal computes it: equal lengths and pointwise element equality. -/
def elemsEq : List HNode → List HNode → Prop :=
  List.Forall₂ hnodeEq

/-- The list view: the address of the wrapped list object (the cont
member) and the sequence of stored variants its iterators dereference
to. -/
structure list_wrapper where
  addr : Nat
  elems : List HNode

/-- The equality operator of detail::list_wrapper: pointer equality of
the wrapped lists, short-circuiting the traversal, or std::equal over
the dereferenced sequences. -/
def list_wrapper.eqv (a b : list_wrapper) : Prop :=
  a.addr = b.addr ∨ elemsEq a.elems b.elems

/-- Views of one list object agree: the same address is the same vector
of element pointers, hence the same dereferenced sequence. This is the
heap consistency every C++ execution provides. -/
def SameHeap (a b : list_wrapper) : Prop :=
  a.addr = b.addr → a.elems = b.elems

/-- A heap of stored nodes, resolving the erased child addresses. -/
def NodeHeap := Nat → Option HNode

/-- The stored layout under a heap represents an abstract node tree:
every child address resolves to a stored node representing the
corresponding subtree. Structural equality of trees, in the sense of
section 4.2 of the specification, is equality of the represented Node
values. -/
inductive Represents (h : NodeHeap) : HNode → Node → Prop where
  | byte (v : Int) : Represents h (.byte v) (.byte v)
  | short (v : Int) : Represents h (.short v) (.short v)
  | int (v : Int) : Represents h (.int v) (.int v)
  | long (v : Int) : Represents h (.long v) (.long v)
  | float (b : Nat) : Represents h (.float b) (.float b)
  | double (b : Nat) : Represents h (.double b) (.double b)
  | byteArray (vs : List Int) : Represents h (.byteArray vs) (.byteArray vs)
  | string (s : List Nat) : Represents h (.string s) (.string s)
  | list (ps : List Nat) (ns : List Node) :
      ps.length = ns.length →
      (∀ i (hi : i < ps.length), (h (ps.get ⟨i, hi⟩)).isSome) →
      (∀ i (hi : i < ps.length) (hj : i < ns.length) (hp : HNode),
        h (ps.get ⟨i, hi⟩) = some hp → Represents h hp (ns.get ⟨i, hj⟩)) →
      Represents h (.list ps) (.list ns)
  | compound (ents : List (List Nat × Nat)) (es : List (List Nat × Node)) :
      ents.length = es.length →
      (∀ i (hi : i < ents.length) (hj : i < es.length),
        (ents.get ⟨i, hi⟩).1 = (es.get ⟨i, hj⟩).1) →
      (∀ i (hi : i < ents.length), (h (ents.get ⟨i, hi⟩).2).isSome) →
      (∀ i (hi : i < ents.length) (hj : i < es.length) (hp : HNode),
        h (ents.get ⟨i, hi⟩).2 = some hp → Represents h hp (es.get ⟨i, hj⟩).2) →
      Represents h (.compound ents) (.compound es)
  | intArray (vs : List Int) : Represents h (.intArray vs) (.intArray vs)
  | longArray (vs : List Int) : Represents h (.longArray vs) (.longArray vs)

/-- A two-cell heap holding the stored node Byte 5 twice, at the
distinct addresses 1 and 2. -/
def exHeap : NodeHeap := fun a =>
  if a = 1 then some (.byte 5) else if a = 2 then some (.byte 5) else none

/-- Variant comparison of a NaN-free stored node with itself succeeds. -/
theorem hnodeEq_refl (e : HNode) (h : NaNFree e) : hnodeEq e e := by
  cases e <;> first
    | exact ⟨h, h, Or.inl rfl⟩
    | exact ⟨rfl, fun kp hm => ⟨kp, hm, rfl, rfl⟩⟩
    | simp [hnodeEq]

/-- The std::equal traversal of a NaN-free sequence against itself
succeeds. -/
theorem elemsEq_refl (l : List HNode) (h : ∀ e ∈ l, NaNFree e) :
    elemsEq l l := by
  induction l with
  | nil => exact List.Forall₂.nil
  | cons e t ih =>
      exact List.Forall₂.cons (hnodeEq_refl e (h e (List.mem_cons_self e t)))
        (ih fun x hx => h x (List.mem_cons_of_mem e hx))

/-!
Decompression front-end (nbt::parse_auto). The input stream with its
one-character pushback is modelled by the underlying characters and a
read position; the boost decompressor filters are external collaborators
and enter only as opaque byte-stream transformers.
-/

structure IStream where
  data : List Nat
  pos : Nat
deriving Repr, DecidableEq

/-- Peek at the next character of the stream; none is eof. -/
def IStream.peekc (s : IStream) : Option Nat := s.data.get? s.pos

/-- Consume one character, as istream get. -/
def IStream.getc (s : IStream) : IStream := ⟨s.data, s.pos + 1⟩

/-- Push the last consumed character back, as istream unget. -/
def IStream.ungetc (s : IStream) : IStream := ⟨s.data, s.pos - 1⟩

/-- The three transport framings the front-end can select. -/
inductive Framing where
  | gzip
  | zlib
  | raw
deriving Repr, DecidableEq

/-- The dispatch of nbt::parse_auto, transcribed: switch on the peeked
first character; for 0x1F or 0x78 consume it, peek the second character,
unget, and select gzip or zlib when the magic matches; in every other
situation fall through to raw. The returned stream is what the selected
downstream consumer (decompressor or parser) will read. -/
def parse_auto_route (s : IStream) : Framing × IStream :=
  match s.peekc with
  | some b0 =>
      if b0 = 0x1F then
        let s1 := s.getc
        let tmp := s1.peekc
        let s2 := s1.ungetc
        if tmp = some 0x8B then (.gzip, s2) else (.raw, s2)
      else if b0 = 0x78 then
        let s1 := s.getc
        let tmp := s1.peekc
        let s2 := s1.ungetc
        if tmp = some 0x01 ∨ tmp = some 0x9C ∨ tmp = some 0xDA then (.zlib, s2)
        else (.raw, s2)
      else (.raw, s)
  | none => (.raw, s)

/-- Behaviour of nbt::parse_auto given the two boost decompressors as
opaque byte-stream transformers: route, feed the stream from the current
position to the selected decompressor, and run the parser. -/
def parse_auto (pol : Parsing) (gz uz : List Nat → List Nat) (bs : List Nat)
    (fuel : Nat) : Outcome :=
  let r := parse_auto_route ⟨bs, 0⟩
  let payload := r.2.data.drop r.2.pos
  match r.1 with
  | .gzip => run pol fuel (initConfig pol (gz payload))
  | .zlib => run pol fuel (initConfig pol (uz payload))
  | .raw => run pol fuel (initConfig pol payload)

/-- Framing selection exactly as the specification claim words it, on the
first two bytes of the input; the comparison target for the routing
code. -/
def specFraming : List Nat → Framing
  | b0 :: b1 :: _ =>
      if b0 = 0x1F ∧ b1 = 0x8B then .gzip
      else if b0 = 0x78 ∧ (b1 = 0x01 ∨ b1 = 0x9C ∨ b1 = 0xDA) then .zlib
      else .raw
  | _ => .raw

/-! End-to-end parse runs over encoded documents. -/

/-- Implicit policy on a bare compound body: the entries are folded
first-write-wins and eof at the entry boundary accepts. -/
theorem parse_entries_implicit (es : List (List Nat × Node)) (h : WFEntries es) :
    ParsesTo .implicit_compound (encEntries es) (.compound (fwFold [] es)) [] := by
  have hloop := entriesLoopSteps .implicit_compound es
    (fun kv hkv => (h kv hkv).1)
    (fun kv hkv => decodeSteps .implicit_compound (h kv hkv).2) [] [] [] []
  rw [List.append_nil] at hloop
  exact parsesTo_intro (steps_head (step_SA _ _ _ _) hloop)
    (step_NTS_eof_implicit _ _ _)

/-- Explicit policy on an unnamed wrapped document: leading Compound tag
byte, body, End byte, all consumed, eof accepted in state F. -/
theorem parse_unnamed_explicit (es : List (List Nat × Node)) (h : WFEntries es) :
    ParsesTo .no_implicit (0x0A :: (encEntries es ++ [0]))
      (.compound (fwFold [] es)) [] := by
  have hloop := entriesLoopSteps .no_implicit es
    (fun kv hkv => (h kv hkv).1)
    (fun kv hkv => decodeSteps .no_implicit (h kv hkv).2) [] [0] [.F] []
  have hsteps : Steps .no_implicit
      (initConfig .no_implicit (0x0A :: (encEntries es ++ [0])))
      ⟨[], [.F], [.compound (fwFold [] es)]⟩ := by
    refine steps_head (step_S_tag _ _ _ _ 10 (by norm_num) (by norm_num)) ?_
    have hsa : stateOfTag ((10 : Nat) : Int) = .SA := by norm_num [stateOfTag]
    rw [hsa]
    refine steps_head (step_SA _ _ _ _) ?_
    exact steps_trans hloop (steps_single (step_NTS_end _ _ _ _))
  exact parsesTo_intro hsteps (step_F_done _ _ _ _)

/--
Claim C1: for the 33-byte Hello World input, parsing under the
implicit-root policy succeeds and returns a Compound with exactly one
entry keyed by the bytes of the text hello world, whose value is a
Compound with exactly one entry keyed name whose value is the String
Bananrama, with the whole stream consumed.
-/
theorem C1_hello_world_implicit :
    ParsesTo .implicit_compound
      [0x0A, 0x00, 0x0B, 0x68, 0x65, 0x6C, 0x6C, 0x6F, 0x20, 0x77, 0x6F, 0x72,
       0x6C, 0x64, 0x08, 0x00, 0x04, 0x6E, 0x61, 0x6D, 0x65, 0x00, 0x09, 0x42,
       0x61, 0x6E, 0x61, 0x6E, 0x72, 0x61, 0x6D, 0x61, 0x00]
      (.compound [([0x68, 0x65, 0x6C, 0x6C, 0x6F, 0x20, 0x77, 0x6F, 0x72, 0x6C,
          0x64],
        .compound [([0x6E, 0x61, 0x6D, 0x65],
          .string [0x42, 0x61, 0x6E, 0x61, 0x6E, 0x72, 0x61, 0x6D, 0x61])])])
      [] :=
  ⟨40, rfl⟩

/--
Claim C3, counterexample: the claim asserts that every full document of
the form 0x0A, u16 root name length, root name, body, 0x00 succeeds
under the explicit policy with the whole wrapper consumed. The full
document with root name A and empty body fails instead: the explicit
policy reads no root name, so after the tag byte the machine is in the
compound body state, consumes the first length byte 0x00 as the End tag,
and then faults in the accept state on the second length byte.
-/
theorem C3_counterexample :
    FailsWith .no_implicit [0x0A, 0x00, 0x01, 0x41, 0x00] .outOfRange :=
  ⟨10, rfl⟩

/--
Claim C3, amended: the explicit policy consumes a full UNNAMED document,
tag byte 0x0A, compound body, terminating 0x00, entirely and succeeds;
there is no root name in the wrapper it accepts. The implicit-root
policy consumes exactly the compound body, without tag byte, name or
terminator.
-/
theorem C3_explicit_unnamed_wrapper (es : List (List Nat × Node))
    (h : WFEntries es) :
    ParsesTo .no_implicit (0x0A :: (encEntries es ++ [0]))
      (.compound (fwFold [] es)) [] ∧
    ParsesTo .implicit_compound (encEntries es) (.compound (fwFold [] es)) [] :=
  ⟨parse_unnamed_explicit es h, parse_entries_implicit es h⟩

/-- Witness for the amended claim C3, at the body with the single entry
keyed by byte 0x41 holding Byte 7. -/
theorem C3_explicit_unnamed_wrapper_witness :
    ParsesTo .no_implicit [0x0A, 0x01, 0x00, 0x01, 0x41, 0x07, 0x00]
      (.compound [([0x41], .byte 7)]) [] ∧
    ParsesTo .implicit_compound [0x01, 0x00, 0x01, 0x41, 0x07]
      (.compound [([0x41], .byte 7)]) [] := by
  have h := C3_explicit_unnamed_wrapper [([0x41], .byte 7)]
    (by
      intro kv hkv
      simp only [List.mem_singleton] at hkv
      subst hkv
      exact ⟨by norm_num, WF.byte 7 (by norm_num) (by norm_num)⟩)
  have he : encEntries [([0x41], .byte 7)] = [0x01, 0x00, 0x01, 0x41, 0x07] := by
    simp [encEntries, encEntry, tagOf, be, encPayload_byte, encInt_one]
  have hf : fwFold [] [([0x41], .byte 7)] = [([0x41], .byte 7)] := by
    simp [fwFold, insertFW]
  rw [he, hf] at h
  exact h

/--
Claim C4: a wire compound body whose entries repeat a key parses with
every entry consumed (the whole stream is read to the end) while the
resulting Compound keeps, for the repeated key, the value of its first
occurrence; later occurrences are discarded.
-/
theorem C4_duplicate_keys_first_wins (es : List (List Nat × Node))
    (k : List Nat) (h : WFEntries es)
    (_hdup : 2 ≤ (es.map Prod.fst).count k) :
    ParsesTo .implicit_compound (encEntries es) (.compound (fwFold [] es)) [] ∧
    lookupA (fwFold [] es) k = lookupA es k := by
  refine ⟨parse_entries_implicit es h, ?_⟩
  rw [lookupA_fwFold es [] k, lookupA_nil]
  rfl

/-- Witness for claim C4, at a body with the key 0x6B twice: the parse
consumes both entries and keeps Byte 1, the first value. -/
theorem C4_duplicate_keys_first_wins_witness :
    (ParsesTo .implicit_compound
      (encEntries [([0x6B], Node.byte 1), ([0x6B], Node.byte 2)])
      (.compound (fwFold [] [([0x6B], Node.byte 1), ([0x6B], Node.byte 2)])) []
      ∧ lookupA (fwFold [] [([0x6B], Node.byte 1), ([0x6B], Node.byte 2)]) [0x6B]
        = lookupA [([0x6B], Node.byte 1), ([0x6B], Node.byte 2)] [0x6B]) ∧
    fwFold [] [([0x6B], Node.byte 1), ([0x6B], Node.byte 2)]
      = [([0x6B], Node.byte 1)] := by
  constructor
  · refine C4_duplicate_keys_first_wins _ [0x6B] ?_ (by decide)
    intro kv hkv
    simp only [List.mem_cons, List.mem_singleton] at hkv
    rcases hkv with hkv | hkv | hkv
    · subst hkv
      exact ⟨by norm_num, WF.byte 1 (by norm_num) (by norm_num)⟩
    · subst hkv
      exact ⟨by norm_num, WF.byte 2 (by norm_num) (by norm_num)⟩
    · simp at hkv
  · simp [fwFold, insertFW]

/--
Claim C10: under the implicit-root policy a stream that is a
concatenation of well-formed compound entries and then ends succeeds at
the entry boundary, returning the Compound of the entries read so far
(folded first-write-wins), with no terminating 0x00 byte required; the
empty stream in particular yields the empty Compound.
-/
theorem C10_implicit_eof_at_boundary (es : List (List Nat × Node))
    (h : WFEntries es) :
    ParsesTo .implicit_compound (encEntries es) (.compound (fwFold [] es)) [] :=
  parse_entries_implicit es h

/-- Witness for claim C10, at the empty entry run: the empty stream
parses to the empty Compound. -/
theorem C10_implicit_eof_at_boundary_witness :
    ParsesTo .implicit_compound [] (.compound []) [] := by
  have h := C10_implicit_eof_at_boundary [] (by intro kv hkv; simp at hkv)
  rw [encEntries_nil, fwFold_nil] at h
  exact h

/--
Claim C5, counterexample: the claim asserts that a List whose declared
32-bit count is negative parses to an empty list. On the explicit-policy
input 0x09 0x01 FF FF FF FF (element tag Byte, count -1) the parse does
not return a list at all: case 9B calls reserve on the wrapped negative
count, which exceeds max_size and raises length_error.
-/
theorem C5_counterexample :
    FailsWith .no_implicit [0x09, 0x01, 0xFF, 0xFF, 0xFF, 0xFF] .lengthError :=
  ⟨10, rfl⟩

/--
Claim C5, amended: a ByteArray, IntArray or LongArray whose 32-bit
length prefix decodes negative yields the empty array with no payload
byte consumed after the prefix; a List whose count decodes negative
instead aborts the parse with the length error raised by reserve.
-/
theorem C5_negative_length_prefixes (pol : Parsing) (b4 : List Nat)
    (rest : ByteStream) (ss : List St) (ret : List Node)
    (hlen : b4.length = 4) (hneg : scast 32 (beVal b4) < 0) :
    Steps pol ⟨b4 ++ rest, .S7 :: ss, ret⟩ ⟨rest, ss, .byteArray [] :: ret⟩ ∧
    Steps pol ⟨b4 ++ rest, .SB :: ss, ret⟩ ⟨rest, ss, .intArray [] :: ret⟩ ∧
    Steps pol ⟨b4 ++ rest, .SC :: ss, ret⟩ ⟨rest, ss, .longArray [] :: ret⟩ ∧
    ∀ t : Nat, StepsFail pol ⟨t :: (b4 ++ rest), .S9 :: ss, ret⟩ .lengthError := by
  refine ⟨?_, ?_, ?_, ?_⟩
  · refine steps_head (step_S7 _ _ _ _) ?_
    refine steps_head (step_S3 _ rest (.S7A :: ss) ret b4 hlen) ?_
    exact steps_single (step_S7A_neg _ _ _ _ _ (by omega))
  · refine steps_head (step_SB _ _ _ _) ?_
    refine steps_head (step_S3 _ rest (.SBA :: ss) ret b4 hlen) ?_
    exact steps_single (step_SBA_neg _ _ _ _ _ (by omega))
  · refine steps_head (step_SC _ _ _ _) ?_
    refine steps_head (step_S3 _ rest (.SCA :: ss) ret b4 hlen) ?_
    exact steps_single (step_SCA_neg _ _ _ _ _ (by omega))
  · intro t
    refine ⟨⟨rest, .S9A :: ss,
      .int (scast 32 (beVal b4)) :: .byte (wrapCast 8 t) :: .list [] :: ret⟩,
      ?_, ?_⟩
    · refine steps_head (step_S9 _ _ _ _) ?_
      refine steps_head
        (step_S1 _ (b4 ++ rest) (.S3 :: .S9A :: ss) (.list [] :: ret) t) ?_
      exact steps_single
        (step_S3 _ rest (.S9A :: ss)
          (.byte (wrapCast 8 t) :: .list [] :: ret) b4 hlen)
    · exact step_S9A_reserve _ _ _ _ _ _ _ hneg

/-- Witness for the amended claim C5, with prefix FF FF FF FF (count -1)
under the explicit policy. -/
theorem C5_negative_length_prefixes_witness :
    (Steps .no_implicit ⟨[0xFF, 0xFF, 0xFF, 0xFF], [.S7, .F], []⟩
      ⟨[], [.F], [.byteArray []]⟩ ∧
    Steps .no_implicit ⟨[0xFF, 0xFF, 0xFF, 0xFF], [.SB, .F], []⟩
      ⟨[], [.F], [.intArray []]⟩ ∧
    Steps .no_implicit ⟨[0xFF, 0xFF, 0xFF, 0xFF], [.SC, .F], []⟩
      ⟨[], [.F], [.longArray []]⟩ ∧
    StepsFail .no_implicit ⟨[0x01, 0xFF, 0xFF, 0xFF, 0xFF], [.S9, .F], []⟩
      .lengthError) ∧
    scast 32 (beVal [0xFF, 0xFF, 0xFF, 0xFF]) = -1 := by
  have h := C5_negative_length_prefixes .no_implicit [0xFF, 0xFF, 0xFF, 0xFF]
    [] [.F] [] rfl (by decide)
  simp only [List.append_nil] at h
  exact ⟨⟨h.1, h.2.1, h.2.2.1, h.2.2.2 1⟩, by decide⟩

/--
Claim C6: the specification declares a List with element tag 0x00 and a
strictly positive count malformed, noting the source is lenient by
oversight. The source indeed accepts it: on the explicit-policy input
0x09 0x00 00 00 00 01 (element tag End, count 1) case 9B takes its empty
branch, the parse succeeds and returns the empty List with the stream
fully consumed, rather than failing.
-/
theorem C6_list_end_tag_positive_count_accepted :
    ParsesTo .no_implicit [0x09, 0x00, 0x00, 0x00, 0x00, 0x01] (.list []) [] :=
  ⟨10, rfl⟩

/--
Claim C7: the claim asserts the 16-bit String length is read as an
unsigned byte count, every length up to 65535 being valid. The source
reads the length through the signed Short state: a declared length of
32768 (bytes 0x80 0x00) becomes the Short -32768, whose conversion to
std::size_t wraps to 2 to the 64 minus 32768, so the parser attempts to
allocate and read that many bytes and fails on any realizable stream
instead of reading exactly 32768 bytes.
-/
theorem C7_high_string_length_fails (payload : List Nat)
    (h : payload.length < 2 ^ 64 - 32768) :
    FailsWith .no_implicit (0x08 :: 0x80 :: 0x00 :: payload) .truncated := by
  have ht : toSizeT (-32768) = 2 ^ 64 - 32768 := by decide
  have hs : step .no_implicit ⟨payload, [.S8A, .F], [.short (-32768)]⟩
      = .fail .truncated :=
    step_S8A_trunc _ _ _ _ (-32768) (by rw [ht]; exact h)
  refine failsWith_intro ?_ hs
  refine steps_head (step_S_tag _ _ _ _ 8 (by norm_num) (by norm_num)) ?_
  have h8 : stateOfTag ((8 : Nat) : Int) = .S8 := by norm_num [stateOfTag]
  rw [h8]
  refine steps_head (step_S8 _ _ _ _) ?_
  rw [show (0x80 : Nat) :: (0x00 : Nat) :: payload = [0x80, 0x00] ++ payload from rfl]
  have h2 := step_S2 .no_implicit payload (.S8A :: [.F]) [] [0x80, 0x00] rfl
  rw [show scast 16 (beVal [0x80, 0x00]) = -32768 from by decide] at h2
  exact steps_head h2 (steps_refl _ _)

/-- Witness for claim C7: a stream declaring String length 32768 and
carrying exactly 32768 payload bytes fails. -/
theorem C7_high_string_length_fails_witness :
    FailsWith .no_implicit (0x08 :: 0x80 :: 0x00 :: List.replicate 32768 0x41)
      .truncated :=
  C7_high_string_length_fails (List.replicate 32768 0x41)
    (by rw [List.length_replicate]; norm_num)

/--
Claim C8, counterexample: the claim asserts that any tag byte outside
0x00..0x0C in a tag-expecting state makes the parse terminate with a
typed UnknownTag error and return no tree. Inside a compound body (state
NTS, which expects a tag) the byte 0x0D is instead consumed as an entry
tag: on the implicit-policy input 0x0D 0x00 0x00 the machine reads an
entry name of length zero, dispatches the invalid tag to the accept
state, and the parse SUCCEEDS, returning the empty String node.
-/
theorem C8_counterexample :
    ParsesTo .implicit_compound [0x0D, 0x00, 0x00] (.string []) [] :=
  ⟨10, rfl⟩

/--
Claim C8, amended: in state S (explicit-policy top-level dispatch) a
leading byte outside 0x01..0x0C has no transition and no wildcard, so
the parse aborts at once with the untyped out-of-range lookup failure of
the default map and returns no tree; there is no NBT-specific error kind
or context, and inside a compound body such a byte is not rejected at
the point it is read.
-/
theorem C8_unknown_tag_top_level (b : Nat) (rest : ByteStream) (h : 12 < b) :
    FailsWith .no_implicit (b :: rest) .outOfRange :=
  failsWith_intro (steps_refl _ _) (step_S_bad _ _ _ _ b (by omega))

/-- Witness for the amended claim C8, at the single byte 0x0D. -/
theorem C8_unknown_tag_top_level_witness :
    FailsWith .no_implicit [0x0D] .outOfRange :=
  C8_unknown_tag_top_level 0x0D [] (by norm_num)

/--
Claim C9, counterexample: the claim asserts that two list views compare
equal if and only if their underlying lists are element-wise equal,
where node equality is structural (section 4.2 of the specification).
Two views over distinct list objects, each holding a single nested-list
element whose separately allocated child (address 1, respectively 2)
stores Byte 5, have element-wise structurally equal underlying lists:
both elements represent the same abstract tree, a List of one Byte 5.
Yet the views compare UNEQUAL, because std::equal compares the nested
List alternatives by their erased child pointers, 1 against 2, and the
wrapped-list addresses 10 and 20 differ as well.
-/
theorem C9_counterexample :
    Represents exHeap (HNode.list [1]) (Node.list [Node.byte 5]) ∧
    Represents exHeap (HNode.list [2]) (Node.list [Node.byte 5]) ∧
    ¬list_wrapper.eqv ⟨10, [HNode.list [1]]⟩ ⟨20, [HNode.list [2]]⟩ := by
  refine ⟨?_, ?_, ?_⟩
  · refine Represents.list _ _ rfl ?_ ?_
    · intro i hi
      have h0 : i = 0 := by simp at hi; omega
      subst h0
      rfl
    · intro i hi hj hp hsome
      have h0 : i = 0 := by simp at hi; omega
      subst h0
      have h5 : hp = HNode.byte 5 := by
        simp [exHeap] at hsome
        exact hsome.symm
      subst h5
      exact Represents.byte 5
  · refine Represents.list _ _ rfl ?_ ?_
    · intro i hi
      have h0 : i = 0 := by simp at hi; omega
      subst h0
      rfl
    · intro i hi hj hp hsome
      have h0 : i = 0 := by simp at hi; omega
      subst h0
      have h5 : hp = HNode.byte 5 := by
        simp [exHeap] at hsome
        exact hsome.symm
      subst h5
      exact Represents.byte 5
  · intro hcon
    rcases hcon with h | h
    · exact absurd h (by decide)
    · cases h with
      | cons h1 _ => simp [hnodeEq] at h1

/--
Claim C9, amended: with heap consistency (views over one address
dereference to one sequence) and NaN-free elements, two list views
compare equal exactly when the four-iterator std::equal succeeds on
their dereferenced sequences, whose element equality is the variant
comparison the code performs: by value for scalar, String, ByteArray,
IntArray and LongArray alternatives, but by erased child POINTER for
nested List (and Compound) alternatives, never structurally. Two views
wrapping the same list object compare equal by the pointer test alone,
whatever their element fields hold, and every view compares equal to
itself unconditionally.
-/
theorem C9_list_view_equality (a b : list_wrapper) (hheap : SameHeap a b)
    (hnan : ∀ e ∈ a.elems, NaNFree e) :
    (list_wrapper.eqv a b ↔ elemsEq a.elems b.elems) ∧
    (∀ n xs ys, list_wrapper.eqv ⟨n, xs⟩ ⟨n, ys⟩) ∧
    list_wrapper.eqv a a ∧
    (∀ ps qs, hnodeEq (.list ps) (.list qs) ↔ ps = qs) := by
  refine ⟨⟨fun h => ?_, fun h => Or.inr h⟩, fun n xs ys => Or.inl rfl,
    Or.inl rfl, fun ps qs => Iff.rfl⟩
  rcases h with h | h
  · have he := hheap h
    rw [he] at hnan ⊢
    exact elemsEq_refl _ hnan
  · exact h

/-- Witness for the amended claim C9, at views over distinct addresses
with equal scalar sequences, the pointer shortcut at one address with
different element fields, self equality, and the pointer-based nested
list comparison at the single address 3. -/
theorem C9_list_view_equality_witness :
    (list_wrapper.eqv ⟨10, [HNode.byte 5]⟩ ⟨20, [HNode.byte 5]⟩ ↔
      elemsEq [HNode.byte 5] [HNode.byte 5]) ∧
    list_wrapper.eqv ⟨7, [HNode.list [1]]⟩ ⟨7, [HNode.list [2]]⟩ ∧
    list_wrapper.eqv ⟨10, [HNode.byte 5]⟩ ⟨10, [HNode.byte 5]⟩ ∧
    (hnodeEq (HNode.list [3]) (HNode.list [3]) ↔ ([3] : List Nat) = [3]) := by
  have h := C9_list_view_equality ⟨10, [HNode.byte 5]⟩ ⟨20, [HNode.byte 5]⟩
    (fun hc => absurd hc (by decide))
    (fun e he => by
      simp only [List.mem_singleton] at he
      subst he
      trivial)
  exact ⟨h.1, h.2.1 7 [HNode.list [1]] [HNode.list [2]], h.2.2.1,
    h.2.2.2 [3] [3]⟩

/--
Claim C2: the framing dispatch of parse_auto inspects at most the first
two characters and restores them: it selects gzip exactly when the
stream opens 0x1F 0x8B, zlib exactly when it opens 0x78 followed by
0x01, 0x9C or 0xDA, and raw otherwise, and in all three situations the
selected downstream consumer reads the stream from its first byte.
-/
theorem C2_parse_auto_framing (bs : List Nat) (pol : Parsing)
    (gz uz : List Nat → List Nat) (fuel : Nat) :
    parse_auto_route ⟨bs, 0⟩ = (specFraming bs, ⟨bs, 0⟩) ∧
    parse_auto pol gz uz bs fuel =
      (match specFraming bs with
       | .gzip => run pol fuel (initConfig pol (gz bs))
       | .zlib => run pol fuel (initConfig pol (uz bs))
       | .raw => run pol fuel (initConfig pol bs)) := by
  have hroute : parse_auto_route ⟨bs, 0⟩ = (specFraming bs, ⟨bs, 0⟩) := by
    match bs with
    | [] => rfl
    | [b0] =>
        by_cases h1 : b0 = 0x1F
        · subst h1; rfl
        · by_cases h3 : b0 = 0x78
          · subst h3; rfl
          · simp [parse_auto_route, specFraming, IStream.peekc, h1, h3]
    | b0 :: b1 :: t =>
        by_cases h1 : b0 = 0x1F
        · subst h1
          by_cases h2 : b1 = 0x8B
          · subst h2; rfl
          · simp [parse_auto_route, specFraming, IStream.peekc, IStream.getc,
              IStream.ungetc, h2]
        · by_cases h3 : b0 = 0x78
          · subst h3
            by_cases h4 : b1 = 0x01
            · subst h4; rfl
            · by_cases h5 : b1 = 0x9C
              · subst h5; rfl
              · by_cases h6 : b1 = 0xDA
                · subst h6; rfl
                · simp [parse_auto_route, specFraming, IStream.peekc,
                    IStream.getc, IStream.ungetc, h4, h5, h6]
          · simp [parse_auto_route, specFraming, IStream.peekc, h1, h3]
  refine ⟨hroute, ?_⟩
  rw [parse_auto, hroute]
  simp only [List.drop_zero]

end Nbt
